import Mathlib

/-!
Shallow embedding of the practice-mode engine of the hungry_hippos repository
(`usePracticeMode`: step builder, discrete/continuous practice state machine,
flowing practice state machine, session log).

Times are modelled as rationals (seconds), pitches as naturals (MIDI numbers
0–127), pitch sets as `Finset ℕ`.  Wall-clock anchoring of the animation loops
is abstracted: a tick event carries the practice-clock value `newTime` that the
source computes from `performance.now()`; every other computation is translated
directly from the source.
-/

namespace Practice

attribute [local semireducible] Rat.add Rat.sub Rat.mul Rat.inv

/-- One sounded note from the score (`NoteEvent`).  Only the fields read by the
practice-judgment logic are modelled (`midi`, `time`, `duration`); `velocity`
and `name` feed only the out-of-scope audio layer. -/
structure NoteEv where
  midi : ℕ
  time : ℚ
  duration : ℚ
  deriving DecidableEq

/-- 30 ms — notes within this window form the same step (`CHORD_TOLERANCE_SEC`). -/
def chordTolerance : ℚ := 3 / 100

/-- `OVER_HOLD_FACTOR`: holding longer than duration × this factor resets the step. -/
def overHoldFactor : ℚ := 3 / 2

/-- `MIN_EFFECTIVE_DURATION` (seconds), the floor for the over-hold check. -/
def minEffectiveDuration : ℚ := 3 / 10

/-- `FLOWING_PERFECT_MS` -/
def flowingPerfectMs : ℚ := 50

/-- `FLOWING_GREAT_MS` -/
def flowingGreatMs : ℚ := 150

/-- `FLOWING_OKAY_MS` -/
def flowingOkayMs : ℚ := 300

/-- `FLOWING_MATCH_WINDOW_MS` -/
def flowingMatchWindowMs : ℚ := 500

/-- The match window expressed in seconds (`FLOWING_MATCH_WINDOW_MS / 1000`). -/
def flowingMatchWindowSec : ℚ := 1 / 2

/-- Flowing-mode rating (`FlowingRating`). -/
inductive FlowingRating where
  | perfect
  | great
  | okay
  | poor
  | miss
  deriving DecidableEq

/-- `rateTimingOffset`: classify an absolute timing offset (ms) into a rating. -/
def rateTimingOffset (absMs : ℚ) : FlowingRating :=
  if absMs ≤ flowingPerfectMs then .perfect
  else if absMs ≤ flowingGreatMs then .great
  else if absMs ≤ flowingOkayMs then .okay
  else .poor

/-- A `PracticeStep`: a chord grouping of simultaneously starting notes. -/
structure PracticeStep where
  index : ℕ
  time : ℚ
  midis : Finset ℕ
  requiredMidis : Finset ℕ
  notes : List NoteEv
  maxDuration : ℚ
  deriving DecidableEq

/-- The comparator of the step builder's sort:
`(a, b) => a.time - b.time || a.midi - b.midi`. -/
def noteLE (a b : NoteEv) : Prop :=
  a.time < b.time ∨ (a.time = b.time ∧ a.midi ≤ b.midi)

instance : DecidableRel noteLE := fun a b => by
  unfold noteLE; infer_instance

instance : IsTotal NoteEv noteLE := by
  constructor
  intro a b
  rcases lt_trichotomy a.time b.time with h | h | h
  · exact Or.inl (Or.inl h)
  · rcases Nat.le_total a.midi b.midi with hm | hm
    · exact Or.inl (Or.inr ⟨h, hm⟩)
    · exact Or.inr (Or.inr ⟨h.symm, hm⟩)
  · exact Or.inr (Or.inl h)

instance : IsTrans NoteEv noteLE := by
  constructor
  intro a b c hab hbc
  rcases hab with h1 | ⟨h1, m1⟩
  · rcases hbc with h2 | ⟨h2, _⟩
    · exact Or.inl (h1.trans h2)
    · exact Or.inl (h2 ▸ h1)
  · rcases hbc with h2 | ⟨h2, m2⟩
    · exact Or.inl (h1 ▸ h2)
    · exact Or.inr ⟨h1.trans h2, m1.trans m2⟩

/-- The comparator of flowing mode's sort: `(a, b) => a.time - b.time`. -/
def noteLEt (a b : NoteEv) : Prop := a.time ≤ b.time

instance : DecidableRel noteLEt := fun a b => by
  unfold noteLEt; infer_instance

instance : IsTotal NoteEv noteLEt := ⟨fun a b => le_total a.time b.time⟩

instance : IsTrans NoteEv noteLEt := ⟨fun _ _ _ h1 h2 => le_trans h1 h2⟩

/-- Stable sort of the note list by `(time, midi)` (`[...allNotes].sort(...)`). -/
def sortNotes (l : List NoteEv) : List NoteEv := List.insertionSort noteLE l

/-- Stable sort of the note list by `time` alone (flowing-mode start). -/
def sortNotesByTime (l : List NoteEv) : List NoteEv := List.insertionSort noteLEt l

/-- The grouping scan of `buildSteps`: a running group with anchor time
`groupTime` absorbs the next note iff `note.time - groupTime ≤ CHORD_TOLERANCE_SEC`,
otherwise the group is flushed and the note starts a new group. -/
def groupNotes (groupTime : ℚ) (acc : List NoteEv) :
    List NoteEv → List (ℚ × List NoteEv)
  | [] => [(groupTime, acc)]
  | n :: rest =>
    if n.time - groupTime ≤ chordTolerance then
      groupNotes groupTime (acc ++ [n]) rest
    else
      (groupTime, acc) :: groupNotes n.time [n] rest

/-- `Math.max(...group.map(n => n.duration))` for a (nonempty) group. -/
def maxDur : List NoteEv → ℚ
  | [] => 0
  | n :: rest => rest.foldl (fun a m => max a m.duration) n.duration

/-- Second pass of `buildSteps`: pitches of notes that started strictly earlier
than the step (by more than the tolerance) and are still sounding past the
step's time (plus tolerance). -/
def sustainedInto (sorted : List NoteEv) (t : ℚ) : Finset ℕ :=
  ((sorted.filter (fun n =>
    decide (n.time < t - chordTolerance) &&
    decide (n.time + n.duration > t + chordTolerance))).map (fun n => n.midi)).toFinset

/-- `buildSteps`: group a flat note list into ordered chord steps and compute
each step's `requiredMidis`. -/
def buildSteps (allNotes : List NoteEv) : List PracticeStep :=
  match sortNotes allNotes with
  | [] => []
  | first :: rest =>
    (groupNotes first.time [first] rest).enum.map (fun p =>
      { index := p.1
        time := p.2.1
        midis := (p.2.2.map (fun n => n.midi)).toFinset
        requiredMidis :=
          (p.2.2.map (fun n => n.midi)).toFinset ∪ sustainedInto (first :: rest) p.2.1
        notes := p.2.2
        maxDuration := maxDur p.2.2 })

/-- Practice status (`PracticeStatus`). -/
inductive PStatus where
  | idle
  | playing
  | sustaining
  | waiting
  | flowing
  | paused
  | complete
  deriving DecidableEq

/-- Practice mode (`PracticeMode`). -/
inductive PMode where
  | discrete
  | continuous
  | flowing
  deriving DecidableEq

/-- One `PracticeLogEntry` of the append-only session log.  The wall-clock
`timestamp` field is not modelled (it carries no judgment information).
`expectedMidis` is modelled as the set the source spreads into an array. -/
structure PracticeLogEntry where
  stepIndex : ℤ
  expectedMidis : Finset ℕ
  playedMidi : ℕ
  correct : Bool
  timingOffsetMs : Option ℤ
  rating : Option FlowingRating
  deriving DecidableEq

/-- JavaScript `Math.round`: round half toward positive infinity. -/
def jsRound (x : ℚ) : ℤ := ⌊x + 1 / 2⌋

/-- The mutable engine state: React state plus the refs that are the source of
truth for the async callbacks.  `wrongTimers` models the pending 800 ms
wrong-note `setTimeout` callbacks (which the source never cancels);
`skipPending` models the pending 3-second skip-button timer. -/
structure EngineState where
  status : PStatus
  mode : PMode
  practiceTime : ℚ
  stepIndex : ℕ
  steps : List PracticeStep
  expectedMidis : Finset ℕ
  satisfied : Finset ℕ
  held : Finset ℕ
  reartic : Finset ℕ
  audioPlayed : Bool
  wrongNote : Option ℕ
  sessionLog : List PracticeLogEntry
  error : Option String
  skipPending : Bool
  showSkipButton : Bool
  wrongTimers : List ℕ
  flowingNotes : List NoteEv
  flowingMatched : Finset ℕ
  flowingMissed : Finset ℕ
  flowingEndTime : ℚ
  flowingTotalNotes : ℕ
  deriving DecidableEq

/-- The state before any session (`idle`, everything empty; the source's
default mode is `flowing`). -/
def initState : EngineState :=
  { status := .idle
    mode := .flowing
    practiceTime := 0
    stepIndex := 0
    steps := []
    expectedMidis := ∅
    satisfied := ∅
    held := ∅
    reartic := ∅
    audioPlayed := false
    wrongNote := none
    sessionLog := []
    error := none
    skipPending := false
    showSkipButton := false
    wrongTimers := []
    flowingNotes := []
    flowingMatched := ∅
    flowingMissed := ∅
    flowingEndTime := 0
    flowingTotalNotes := 0 }

/-- The required set of a step: `requiredMidis` in continuous mode, `midis`
otherwise. -/
def requiredSet (mode : PMode) (step : PracticeStep) : Finset ℕ :=
  if mode = .continuous then step.requiredMidis else step.midis

/-- The required set of the current step (∅ past the end). -/
def requiredOf (s : EngineState) : Finset ℕ :=
  match s.steps.get? s.stepIndex with
  | some step => requiredSet s.mode step
  | none => ∅

/-- `goToStep`: move to step `idx`; past the end → `complete`.  Computes the
re-articulation set (continuous mode: pitches starting fresh in this step that
were also starting pitches of the previous step) and auto-continues sustaining
when every required pitch is already held and none awaits re-articulation. -/
def goToStep (idx : ℕ) (s : EngineState) : EngineState :=
  let s1 := { s with stepIndex := idx }
  match s.steps.get? idx with
  | none => { s1 with status := .complete }
  | some step =>
    let required := requiredSet s.mode step
    let reartic : Finset ℕ :=
      if s.mode = .continuous ∧ 0 < idx then
        match s.steps.get? (idx - 1) with
        | some prev => step.midis ∩ prev.midis
        | none => ∅
      else ∅
    let s2 := { s1 with
      practiceTime := step.time
      expectedMidis := required
      satisfied := ∅
      wrongNote := none
      audioPlayed := false
      reartic := reartic }
    if s.mode = .continuous ∧ ∀ m ∈ required, m ∈ s.held ∧ m ∉ reartic then
      { s2 with
        skipPending := false
        showSkipButton := false
        satisfied := required
        audioPlayed := true
        status := .sustaining }
    else
      { s2 with skipPending := true, showSkipButton := false, status := .playing }

/-- `checkAndResume`: when all required pitches are held (and none awaits
re-articulation), satisfy the step and advance (discrete) or start sustaining
(continuous). -/
def checkAndResume (s : EngineState) : EngineState :=
  if s.status = .waiting ∨ s.status = .playing then
    match s.steps.get? s.stepIndex with
    | none => s
    | some step =>
      let required := requiredSet s.mode step
      if ∀ m ∈ required, m ∈ s.held ∧ m ∉ s.reartic then
        let s1 := { s with satisfied := required, audioPlayed := true }
        if s.mode = .discrete then
          goToStep (s.stepIndex + 1) { s1 with wrongNote := none }
        else
          { s1 with
            skipPending := false
            showSkipButton := false
            wrongNote := none
            status := .sustaining }
      else s
  else s

/-- Outcome tag of one sustain-loop tick (which branch of the source's `tick`
ran). -/
inductive TickOutcome where
  | ignored
  | advance
  | completed
  | overHoldReset
  | advanceTime
  deriving DecidableEq

/-- One tick of `startSustainLoop` at practice-clock value `newTime`: next-step
boundary check first, then completion (final step), then the over-hold check,
else advance the clock. -/
def sustainTick (newTime : ℚ) (s : EngineState) : EngineState × TickOutcome :=
  if s.status = .sustaining then
    match s.steps.get? s.stepIndex with
    | none => (s, .ignored)
    | some step =>
      let eff := max minEffectiveDuration step.maxDuration
      match s.steps.get? (s.stepIndex + 1) with
      | some next =>
        if newTime ≥ next.time then
          (goToStep (s.stepIndex + 1) s, .advance)
        else
          let gap := next.time - step.time
          let limit := step.time + max eff gap * overHoldFactor
          if newTime ≥ limit then
            ({ s with
                practiceTime := step.time
                satisfied := ∅
                audioPlayed := false
                status := .playing
                wrongNote := none }, .overHoldReset)
          else
            ({ s with practiceTime := newTime }, .advanceTime)
      | none =>
        if newTime ≥ step.time + eff then
          ({ s with
              practiceTime := newTime
              status := .complete
              stepIndex := s.stepIndex + 1 }, .completed)
        else
          let gap := eff
          let limit := step.time + max eff gap * overHoldFactor
          if newTime ≥ limit then
            ({ s with
                practiceTime := step.time
                satisfied := ∅
                audioPlayed := false
                status := .playing
                wrongNote := none }, .overHoldReset)
          else
            ({ s with practiceTime := newTime }, .advanceTime)
  else (s, .ignored)

/-- Absolute timing offset in milliseconds between the clock `t` and a
reference note: `Math.abs((currentTime - note.time) * 1000)`. -/
def absOffMs (t : ℚ) (n : NoteEv) : ℚ := |(t - n.time) * 1000|

/-- The candidate scan of `handleFlowingNoteOn`: walk the reference notes in
order, skipping matched/missed indices and other pitches, and keep the
candidate with the strictly smallest absolute offset within the match window. -/
def bestMatchAux (matched missed : Finset ℕ) (midi : ℕ) (t : ℚ) :
    List NoteEv → ℕ → Option (ℕ × NoteEv) → Option (ℕ × NoteEv)
  | [], _, best => best
  | n :: rest, i, best =>
    if i ∈ matched ∨ i ∈ missed then
      bestMatchAux matched missed midi t rest (i + 1) best
    else if n.midi ≠ midi then
      bestMatchAux matched missed midi t rest (i + 1) best
    else
      let best' :=
        match best with
        | none =>
          if absOffMs t n ≤ flowingMatchWindowMs then some (i, n) else none
        | some q =>
          if absOffMs t n ≤ flowingMatchWindowMs ∧ absOffMs t n < absOffMs t q.2 then
            some (i, n)
          else some q
      bestMatchAux matched missed midi t rest (i + 1) best'

/-- The closest unmatched, unmissed reference note with the given pitch within
the match window, together with its index (`bestIdx`/`bestAbsOffset` search). -/
def bestMatch (notes : List NoteEv) (matched missed : Finset ℕ) (midi : ℕ)
    (t : ℚ) : Option (ℕ × NoteEv) :=
  bestMatchAux matched missed midi t notes 0 none

/-- `handleFlowingNoteOn`: match a pressed pitch against the reference notes at
the current practice clock; log a rated `correct=true` entry on a match (the
logged offset is `Math.round`ed), or an unrated `correct=false` entry with
`stepIndex = -1` for an extra press. -/
def handleFlowingNoteOn (midi : ℕ) (s : EngineState) : EngineState :=
  let t := s.practiceTime
  match bestMatch s.flowingNotes s.flowingMatched s.flowingMissed midi t with
  | some q =>
    let offsetMs := (t - q.2.time) * 1000
    let entry : PracticeLogEntry :=
      { stepIndex := (q.1 : ℤ)
        expectedMidis := {q.2.midi}
        playedMidi := midi
        correct := true
        timingOffsetMs := some (jsRound offsetMs)
        rating := some (rateTimingOffset |offsetMs|) }
    { s with
      flowingMatched := insert q.1 s.flowingMatched
      sessionLog := s.sessionLog ++ [entry] }
  | none =>
    let entry : PracticeLogEntry :=
      { stepIndex := -1
        expectedMidis := ∅
        playedMidi := midi
        correct := false
        timingOffsetMs := none
        rating := none }
    { s with sessionLog := s.sessionLog ++ [entry] }

/-- The miss log entry the flowing loop appends for reference note `i`. -/
def missEntry (i : ℕ) (n : NoteEv) : PracticeLogEntry :=
  { stepIndex := (i : ℤ)
    expectedMidis := {n.midi}
    playedMidi := 0
    correct := false
    timingOffsetMs := none
    rating := some .miss }

/-- The per-tick miss scan of `startFlowingLoop`: walk the (time-sorted)
reference notes; a note neither matched nor missed whose start time has fallen
more than the match window behind the clock is logged as a miss exactly once;
the walk stops early at the first unmatched, unmissed note in the future. -/
def missScanAux (t : ℚ) (matched : Finset ℕ) :
    List NoteEv → ℕ → Finset ℕ → List PracticeLogEntry →
    Finset ℕ × List PracticeLogEntry
  | [], _, missed, log => (missed, log)
  | n :: rest, i, missed, log =>
    if i ∈ matched ∨ i ∈ missed then
      missScanAux t matched rest (i + 1) missed log
    else if n.time < t - flowingMatchWindowSec then
      missScanAux t matched rest (i + 1) (insert i missed) (log ++ [missEntry i n])
    else if n.time > t then (missed, log)
    else missScanAux t matched rest (i + 1) missed log

/-- The completion flush of `startFlowingLoop`: every reference note neither
matched nor missed is logged as a miss. -/
def flushAux (matched : Finset ℕ) :
    List NoteEv → ℕ → Finset ℕ → List PracticeLogEntry →
    Finset ℕ × List PracticeLogEntry
  | [], _, missed, log => (missed, log)
  | n :: rest, i, missed, log =>
    if i ∈ matched ∨ i ∈ missed then
      flushAux matched rest (i + 1) missed log
    else
      flushAux matched rest (i + 1) (insert i missed) (log ++ [missEntry i n])

/-- One tick of `startFlowingLoop` at practice-clock value `newTime`: advance
the clock, run the miss scan, and on reaching `lastNoteEnd + 1.0` flush the
remaining unmatched notes as misses and complete. -/
def flowTick (newTime : ℚ) (s : EngineState) : EngineState :=
  if s.status = .flowing then
    let scan :=
      missScanAux newTime s.flowingMatched s.flowingNotes 0 s.flowingMissed s.sessionLog
    let s1 := { s with
      practiceTime := newTime
      flowingMissed := scan.1
      sessionLog := scan.2 }
    if newTime ≥ s.flowingEndTime + 1 then
      let flush := flushAux s.flowingMatched s.flowingNotes 0 scan.1 scan.2
      { s1 with flowingMissed := flush.1, sessionLog := flush.2, status := .complete }
    else s1
  else s

/-- The note-on branch of the discrete/continuous MIDI handler: track the held
note, log the press against the current step's required set, then either record
satisfaction and try to resume, or mark the wrong note, drop to `waiting`
(freezing the clock if sustaining) and schedule the 800 ms auto-clear timer. -/
def noteOnDC (midi : ℕ) (s : EngineState) : EngineState :=
  let s1 := { s with held := insert midi s.held }
  match s.steps.get? s.stepIndex with
  | none => s1
  | some step =>
    let required := requiredSet s.mode step
    let entry : PracticeLogEntry :=
      { stepIndex := (s.stepIndex : ℤ)
        expectedMidis := required
        playedMidi := midi
        correct := decide (midi ∈ required)
        timingOffsetMs := none
        rating := none }
    let s2 := { s1 with sessionLog := s1.sessionLog ++ [entry] }
    if midi ∈ required then
      checkAndResume { s2 with
        reartic := s2.reartic.erase midi
        satisfied := insert midi s2.satisfied
        wrongNote := none }
    else
      { s2 with
        wrongNote := some midi
        status := .waiting
        wrongTimers := s2.wrongTimers ++ [midi] }

/-- The note-off branch of the discrete/continuous MIDI handler: untrack the
held note; a required release during `sustaining` freezes the clock and drops
to `playing`; a required release otherwise just clears satisfaction; in
`waiting`, re-check readiness. -/
def noteOffDC (midi : ℕ) (s : EngineState) : EngineState :=
  let s1 := { s with held := s.held.erase midi }
  match s.steps.get? s.stepIndex with
  | none => s1
  | some step =>
    let required := requiredSet s.mode step
    let s2 :=
      if s1.status = .sustaining ∧ midi ∈ required then
        { s1 with satisfied := s1.satisfied.erase midi, status := .playing }
      else if midi ∈ required then
        { s1 with satisfied := s1.satisfied.erase midi }
      else s1
    if s2.status = .waiting then checkAndResume s2 else s2

/-- Dispatch of a device note-on message by status, as in the source's
`onmidimessage` handler: flowing/paused track the held note (and match it when
flowing); playing/waiting/sustaining run the discrete/continuous branch; other
statuses ignore the message entirely. -/
def noteOnE (midi : ℕ) (s : EngineState) : EngineState :=
  if s.status = .flowing ∨ s.status = .paused then
    let s1 := { s with held := insert midi s.held }
    if s.status = .flowing then handleFlowingNoteOn midi s1 else s1
  else if s.status = .playing ∨ s.status = .waiting ∨ s.status = .sustaining then
    noteOnDC midi s
  else s

/-- Dispatch of a device note-off message by status (see `noteOnE`). -/
def noteOffE (midi : ℕ) (s : EngineState) : EngineState :=
  if s.status = .flowing ∨ s.status = .paused then
    { s with held := s.held.erase midi }
  else if s.status = .playing ∨ s.status = .waiting ∨ s.status = .sustaining then
    noteOffDC midi s
  else s

/-- Firing of one pending 800 ms wrong-note `setTimeout` callback: clear the
wrong-note highlight if it still shows this pitch, then re-check readiness. -/
def wrongTimerFire (midi : ℕ) (s : EngineState) : EngineState :=
  let s1 := { s with
    wrongTimers := s.wrongTimers.erase midi
    wrongNote := if s.wrongNote = some midi then none else s.wrongNote }
  checkAndResume s1

/-- Firing of the pending 3-second skip-button timer: show the button only if
still stuck in `playing` or `waiting`. -/
def skipTimerFire (s : EngineState) : EngineState :=
  if s.skipPending then
    { s with
      skipPending := false
      showSkipButton := decide (s.status = .playing ∨ s.status = .waiting) }
  else s

/-- `skipStep`: force-advance past the current step (no-op past the end). -/
def skipStep (s : EngineState) : EngineState :=
  match s.steps.get? s.stepIndex with
  | none => s
  | some _ =>
    goToStep (s.stepIndex + 1) { s with skipPending := false, showSkipButton := false }

/-- `togglePause` (flowing mode only): freeze or resume the flowing clock. -/
def togglePause (s : EngineState) : EngineState :=
  if s.mode ≠ .flowing then s
  else if s.status = .flowing then { s with status := .paused }
  else if s.status = .paused then { s with status := .flowing }
  else s

/-- `start`: begin a practice session over `allNotes`.  An empty note list is a
synchronous configuration error that changes nothing but the `error` field.
Otherwise session bookkeeping is cleared (pending 800 ms wrong-note timers are
NOT cancelled, as in the source) and the selected mode's machine starts. -/
def start (allNotes : List NoteEv) (s : EngineState) : EngineState :=
  match allNotes with
  | [] => { s with error := some "No notes in this score." }
  | _ :: _ =>
    let s1 := { s with
      sessionLog := []
      satisfied := ∅
      held := ∅
      reartic := ∅
      audioPlayed := false
      error := none
      showSkipButton := false
      wrongNote := none }
    if s.mode = .flowing then
      let sorted := sortNotesByTime allNotes
      match sorted.head?, sorted.getLast? with
      | some first, some lastN =>
        { s1 with
          flowingNotes := sorted
          flowingMatched := ∅
          flowingMissed := ∅
          flowingTotalNotes := sorted.length
          flowingEndTime := lastN.time + lastN.duration
          practiceTime := max 0 (first.time - 2)
          stepIndex := 0
          expectedMidis := ∅
          satisfied := ∅
          steps := []
          status := .flowing }
      | _, _ => s1
    else
      match buildSteps allNotes with
      | [] => { s1 with error := some "No notes in this score." }
      | firstStep :: restSteps =>
        { s1 with
          steps := firstStep :: restSteps
          stepIndex := 0
          practiceTime := firstStep.time
          expectedMidis := firstStep.midis
          satisfied := ∅
          flowingTotalNotes := 0
          status := .playing
          skipPending := true }

/-- `reset`: cancel the skip timer and animation loops, clear all session
state, return to `idle`.  The pending 800 ms wrong-note timers are NOT
cancelled by the source, so `wrongTimers` is deliberately left untouched. -/
def reset (s : EngineState) : EngineState :=
  { s with
    steps := []
    stepIndex := 0
    satisfied := ∅
    sessionLog := []
    held := ∅
    reartic := ∅
    audioPlayed := false
    flowingNotes := []
    flowingMatched := ∅
    flowingMissed := ∅
    flowingTotalNotes := 0
    practiceTime := 0
    expectedMidis := ∅
    wrongNote := none
    error := none
    showSkipButton := false
    skipPending := false
    status := .idle }

/-- The events that can hit the engine: device messages, the animation-loop
ticks (carrying the practice-clock value the source computes from wall time),
the two timers, and the control surface. -/
inductive PEvent where
  | noteOn (midi : ℕ)
  | noteOff (midi : ℕ)
  | sustainTickAt (t : ℚ)
  | flowTickAt (t : ℚ)
  | wrongTimer (midi : ℕ)
  | skipTimer
  | skipPress
  | pauseToggle
  | resetPress
  | startPress (notes : List NoteEv)

/-- Apply one event to the engine state.  A wrong-note timer can only fire if
it is actually pending. -/
def stepE : PEvent → EngineState → EngineState
  | .noteOn m, s => noteOnE m s
  | .noteOff m, s => noteOffE m s
  | .sustainTickAt t, s => (sustainTick t s).1
  | .flowTickAt t, s => flowTick t s
  | .wrongTimer m, s => if m ∈ s.wrongTimers then wrongTimerFire m s else s
  | .skipTimer, s => skipTimerFire s
  | .skipPress, s => skipStep s
  | .pauseToggle, s => togglePause s
  | .resetPress, s => reset s
  | .startPress ns, s => start ns s

/-- Engine states reachable from the initial state — with any pre-selected
practice mode (`setPracticeMode` is called before a session starts) — by any
event sequence. -/
inductive Reachable : EngineState → Prop
  | init : ∀ m : PMode, Reachable { initState with mode := m }
  | step : ∀ s e, Reachable s → Reachable (stepE e s)

/-- The events a flowing session processes: device messages, flowing clock
ticks, pause toggles. -/
def FlowEvent : PEvent → Prop
  | .noteOn _ => True
  | .noteOff _ => True
  | .flowTickAt _ => True
  | .pauseToggle => True
  | _ => False

/-- States of one flowing session over note list `ns`: started in flowing mode
on a nonempty score and driven by flowing-session events. -/
inductive FlowReach (ns : List NoteEv) : EngineState → Prop
  | start : ∀ s₀, s₀.mode = .flowing → ns ≠ [] → FlowReach ns (start ns s₀)
  | step : ∀ s e, FlowReach ns s → FlowEvent e → FlowReach ns (stepE e s)

/-- A log entry is terminal for reference note `i` iff it is attributed to `i`
and is either a matched (`correct=true`) entry or a miss entry. -/
def isTerminalFor (i : ℕ) (e : PracticeLogEntry) : Bool :=
  decide (e.stepIndex = (i : ℤ)) && (e.correct || decide (e.rating = some .miss))

/-- Number of terminal log entries for reference note `i`. -/
def countTerminal (log : List PracticeLogEntry) (i : ℕ) : ℕ :=
  (log.filter (isTerminalFor i)).length

/-! ### Step-builder lemmas -/

lemma sortNotes_sorted (l : List NoteEv) : List.Sorted noteLE (sortNotes l) :=
  List.sorted_insertionSort noteLE l

lemma sortNotes_perm (l : List NoteEv) : (sortNotes l).Perm l :=
  List.perm_insertionSort noteLE l

lemma sortNotes_timeSorted (l : List NoteEv) :
    List.Pairwise (fun a b : NoteEv => a.time ≤ b.time) (sortNotes l) := by
  refine (sortNotes_sorted l).imp ?_
  intro a b hab
  rcases hab with h | ⟨h, _⟩
  · exact le_of_lt h
  · exact le_of_eq h

lemma chordTolerance_nonneg : (0 : ℚ) ≤ chordTolerance := by norm_num [chordTolerance]

lemma groupNotes_bounds :
    ∀ (l : List NoteEv) (gt : ℚ) (acc : List NoteEv),
      (∀ m ∈ acc, gt ≤ m.time ∧ m.time ≤ gt + chordTolerance) →
      (∀ x ∈ l, gt ≤ x.time) →
      List.Pairwise (fun a b : NoteEv => a.time ≤ b.time) l →
      ∀ g ∈ groupNotes gt acc l, ∀ m ∈ g.2, g.1 ≤ m.time ∧ m.time ≤ g.1 + chordTolerance := by
  intro l
  induction l with
  | nil =>
    intro gt acc hacc _ _ g hg m hm
    simp only [groupNotes, List.mem_singleton] at hg
    subst hg
    exact hacc m hm
  | cons n rest ih =>
    intro gt acc hacc hlow hpw g hg m hm
    simp only [groupNotes] at hg
    split at hg
    · refine ih gt (acc ++ [n]) ?_ ?_ hpw.of_cons g hg m hm
      · intro x hx
        rcases List.mem_append.mp hx with hx | hx
        · exact hacc x hx
        · simp only [List.mem_singleton] at hx
          subst hx
          refine ⟨hlow x (List.mem_cons_self _ _), ?_⟩
          linarith [‹x.time - gt ≤ chordTolerance›]
      · intro x hx
        exact hlow x (List.mem_cons_of_mem _ hx)
    · rcases List.mem_cons.mp hg with hg | hg
      · subst hg
        exact hacc m hm
      · refine ih n.time [n] ?_ ?_ hpw.of_cons g hg m hm
        · intro x hx
          simp only [List.mem_singleton] at hx
          subst hx
          exact ⟨le_refl _, by linarith [chordTolerance_nonneg]⟩
        · intro x hx
          exact (List.pairwise_cons.mp hpw).1 x hx

lemma buildSteps_mem_structure (notes : List NoteEv) (s : PracticeStep)
    (hs : s ∈ buildSteps notes) :
    ∃ first rest, sortNotes notes = first :: rest ∧ ∃ g,
      g ∈ groupNotes first.time [first] rest ∧
      s.time = g.1 ∧ s.notes = g.2 ∧
      s.midis = (g.2.map (fun n => n.midi)).toFinset ∧
      s.requiredMidis =
        (g.2.map (fun n => n.midi)).toFinset ∪ sustainedInto (first :: rest) g.1 := by
  unfold buildSteps at hs
  rcases h : sortNotes notes with _ | ⟨first, rest⟩ <;> rw [h] at hs
  · simp at hs
  · rcases List.mem_map.mp hs with ⟨p, hp, he⟩
    refine ⟨first, rest, rfl, p.2, ?_, ?_, ?_, ?_, ?_⟩
    · have := List.mk_mem_enum_iff_get?.mp (by exact hp)
      exact List.get?_mem this
    · rw [← he]
    · rw [← he]
    · rw [← he]
    · rw [← he]

/-- C3 (amended): every note of a step starts within the chord tolerance of
the step's anchor time, hence any two notes of the same step start within
30 ms of each other — so two notes more than 30 ms apart always land in
different steps.  (The converse direction of the claim is false: grouping
compares each note against the running step's anchor, not pairwise; see the
counterexample.) -/
theorem buildSteps_anchor_tolerance (notes : List NoteEv) (s : PracticeStep)
    (hs : s ∈ buildSteps notes) :
    (∀ nt ∈ s.notes, s.time ≤ nt.time ∧ nt.time ≤ s.time + chordTolerance) ∧
    (∀ a ∈ s.notes, ∀ b ∈ s.notes, |a.time - b.time| ≤ chordTolerance) := by
  rcases buildSteps_mem_structure notes s hs with
    ⟨first, rest, hsort, g, hg, htime, hnotes, _, _⟩
  have hpw : List.Pairwise (fun a b : NoteEv => a.time ≤ b.time) (first :: rest) := by
    rw [← hsort]; exact sortNotes_timeSorted notes
  have hbounds := groupNotes_bounds rest first.time [first]
    (by
      intro m hm
      simp only [List.mem_singleton] at hm
      subst hm
      exact ⟨le_refl _, by linarith [chordTolerance_nonneg]⟩)
    (by
      intro x hx
      exact (List.pairwise_cons.mp hpw).1 x hx)
    hpw.of_cons g hg
  constructor
  · intro nt hnt
    rw [htime]
    exact hbounds nt (by rw [← hnotes]; exact hnt)
  · intro a ha b hb
    have hba := hbounds a (by rw [← hnotes]; exact ha)
    have hbb := hbounds b (by rw [← hnotes]; exact hb)
    rw [abs_le]
    constructor <;> linarith [hba.1, hba.2, hbb.1, hbb.2]

/-- The three-note list that separates anchor-based grouping from pairwise
grouping: the second and third notes are 20 ms apart, yet land in different
steps because the third is 40 ms past the first note's anchor. -/
def c3ns : List NoteEv := [⟨60, 0, 1⟩, ⟨62, 1 / 50, 1⟩, ⟨64, 1 / 25, 1⟩]

/-- C3 (counterexample): the notes at 0.02 s and 0.04 s start within the 30 ms
chord tolerance of each other, yet the Step Builder puts them in different
steps — refuting "any two notes whose start times differ by at most 30 ms land
in the same step". -/
theorem buildSteps_pairwise_grouping_false :
    (buildSteps c3ns).map (fun s => s.notes) =
      [[⟨60, 0, 1⟩, ⟨62, 1 / 50, 1⟩], [⟨64, 1 / 25, 1⟩]] ∧
    |(1 / 50 : ℚ) - 1 / 25| ≤ chordTolerance := by
  constructor
  · decide
  · norm_num [chordTolerance, abs_le]

/-- The head step produced from `c3ns`, written out. -/
def c3step : PracticeStep :=
  { index := 0
    time := 0
    midis := {60, 62}
    requiredMidis := {60, 62}
    notes := [⟨60, 0, 1⟩, ⟨62, 1 / 50, 1⟩]
    maxDuration := 1 }

/-- Witness for C3's amended theorem at a concrete step. -/
theorem buildSteps_anchor_tolerance_witness :
    (∀ nt ∈ c3step.notes, c3step.time ≤ nt.time ∧
       nt.time ≤ c3step.time + chordTolerance) ∧
    (∀ a ∈ c3step.notes, ∀ b ∈ c3step.notes, |a.time - b.time| ≤ chordTolerance) :=
  buildSteps_anchor_tolerance c3ns c3step (by decide)

/-- C7: for every step the Step Builder produces, `requiredMidis ⊇ midis`, and
every pitch required but not owned comes from a note that starts strictly
before the step's time and whose interval extends past the step's time by more
than the chord tolerance. -/
theorem buildSteps_required_superset (notes : List NoteEv) (s : PracticeStep)
    (hs : s ∈ buildSteps notes) :
    s.midis ⊆ s.requiredMidis ∧
    ∀ p ∈ s.requiredMidis \ s.midis, ∃ n ∈ notes, n.midi = p ∧
      n.time < s.time ∧ s.time + chordTolerance < n.time + n.duration := by
  rcases buildSteps_mem_structure notes s hs with
    ⟨first, rest, hsort, g, _, htime, _, hmidis, hreq⟩
  constructor
  · rw [hmidis, hreq]
    exact Finset.subset_union_left
  · intro p hp
    rw [Finset.mem_sdiff, hreq, hmidis, Finset.mem_union] at hp
    rcases hp with ⟨h1 | h1, h2⟩
    · exact absurd h1 h2
    · unfold sustainedInto at h1
      rcases List.mem_map.mp (List.mem_toFinset.mp h1) with ⟨n, hn, hmid⟩
      rcases List.mem_filter.mp hn with ⟨hmem, hcond⟩
      have hcond' := Bool.and_eq_true_iff.mp hcond
      have hc1 : n.time < g.1 - chordTolerance := of_decide_eq_true hcond'.1
      have hc2 : n.time + n.duration > g.1 + chordTolerance := of_decide_eq_true hcond'.2
      refine ⟨n, ?_, hmid, ?_, ?_⟩
      · exact (sortNotes_perm notes).mem_iff.mp (by rw [hsort]; exact hmem)
      · rw [htime]
        linarith [chordTolerance_nonneg]
      · rw [htime]
        linarith

/-- The notes of the C5/C7 examples: a long sustained bass note under two
later steps. -/
def c5ns : List NoteEv := [⟨60, 0, 10⟩, ⟨64, 1, 1 / 2⟩, ⟨60, 2, 1⟩]

/-- The middle step produced from `c5ns`: own pitch 64, with the sustained 60
required in continuous mode. -/
def c7step : PracticeStep :=
  { index := 1
    time := 1
    midis := {64}
    requiredMidis := {64, 60}
    notes := [⟨64, 1, 1 / 2⟩]
    maxDuration := 1 / 2 }

/-- Witness for C7 at a concrete step with a strictly sustained pitch. -/
theorem buildSteps_required_superset_witness :
    c7step.midis ⊆ c7step.requiredMidis ∧
    ∀ p ∈ c7step.requiredMidis \ c7step.midis, ∃ n ∈ c5ns, n.midi = p ∧
      n.time < c7step.time ∧
      c7step.time + chordTolerance < n.time + n.duration :=
  buildSteps_required_superset c5ns c7step (by decide)

/-- C2: the flowing-mode rating thresholds are inclusive and non-overlapping:
`|x| ≤ 50 ↔ perfect`, `50 < |x| ≤ 150 ↔ great`, `150 < |x| ≤ 300 ↔ okay`,
`300 < |x| ↔ poor`; in particular 50 ms is perfect, 150 ms is great and 300 ms
is okay. -/
theorem rateTimingOffset_thresholds (x : ℚ) :
    (rateTimingOffset |x| = .perfect ↔ |x| ≤ 50) ∧
    (rateTimingOffset |x| = .great ↔ 50 < |x| ∧ |x| ≤ 150) ∧
    (rateTimingOffset |x| = .okay ↔ 150 < |x| ∧ |x| ≤ 300) ∧
    (rateTimingOffset |x| = .poor ↔ 300 < |x|) ∧
    rateTimingOffset 50 = .perfect ∧
    rateTimingOffset 150 = .great ∧
    rateTimingOffset 300 = .okay := by
  refine ⟨?_, ?_, ?_, ?_, by decide, by decide, by decide⟩ <;>
  · unfold rateTimingOffset flowingPerfectMs flowingGreatMs flowingOkayMs
    split_ifs with h1 h2 h3 <;>
      simp_all <;>
      first
        | linarith
        | (intro h; linarith)

/-- C8: `start()` on an empty note list reports the configuration error
synchronously and changes nothing else: no session is created, the status and
the session log (and every other field) are untouched. -/
theorem start_empty_score (s : EngineState) :
    (start [] s).error = some "No notes in this score." ∧
    (start [] s).status = s.status ∧
    (start [] s).sessionLog = s.sessionLog ∧
    (start [] s).steps = s.steps ∧
    (start [] s).stepIndex = s.stepIndex ∧
    (start [] s).practiceTime = s.practiceTime ∧
    (start [] s).satisfied = s.satisfied ∧
    (start [] s).held = s.held ∧
    (start [] s).flowingNotes = s.flowingNotes ∧
    (start [] s).mode = s.mode :=
  ⟨rfl, rfl, rfl, rfl, rfl, rfl, rfl, rfl, rfl, rfl⟩

/-! ### Over-hold (C6) -/

lemma overHoldFactor_eq : overHoldFactor = 3 / 2 := rfl

lemma minEffectiveDuration_le_eff (d : ℚ) :
    minEffectiveDuration ≤ max minEffectiveDuration d := le_max_left _ _

/-- C6 (amended): the over-hold reset can never fire.  On every sustain tick,
reaching the over-hold limit `step.time + max(effectiveDuration, gap) × 1.5`
implies the next step's boundary (or, on the final step, the completion time)
has also been reached, and that check runs first — so no tick ever takes the
over-hold branch. -/
theorem sustainTick_never_overHoldReset (t : ℚ) (s : EngineState) :
    (sustainTick t s).2 ≠ TickOutcome.overHoldReset := by
  unfold sustainTick
  split
  · split
    · simp
    · rename_i step _
      split
      · rename_i next _
        dsimp only
        split_ifs with h1 h2
        · simp
        · exfalso
          have hM1 : next.time - step.time ≤
              max (max minEffectiveDuration step.maxDuration) (next.time - step.time) :=
            le_max_right _ _
          have hM2 : max minEffectiveDuration step.maxDuration ≤
              max (max minEffectiveDuration step.maxDuration) (next.time - step.time) :=
            le_max_left _ _
          have hme : minEffectiveDuration ≤ max minEffectiveDuration step.maxDuration :=
            le_max_left _ _
          rw [overHoldFactor_eq] at h2
          have hmev : minEffectiveDuration = 3 / 10 := rfl
          push_neg at h1
          linarith
        · simp
      · dsimp only
        split_ifs with h1 h2
        · simp
        · exfalso
          have hme : minEffectiveDuration ≤ max minEffectiveDuration step.maxDuration :=
            le_max_left _ _
          have hmax : max (max minEffectiveDuration step.maxDuration)
              (max minEffectiveDuration step.maxDuration) =
              max minEffectiveDuration step.maxDuration := max_self _
          rw [overHoldFactor_eq, hmax] at h2
          have hmev : minEffectiveDuration = 3 / 10 := rfl
          push_neg at h1
          linarith
        · simp
  · simp

/-- The two-step continuous score of the C6 counterexample. -/
def c6ns : List NoteEv := [⟨60, 0, 1⟩, ⟨64, 1 / 2, 1⟩]

/-- A reachable sustaining state: continuous session over `c6ns` with the
first step's pitch pressed. -/
def c6s : EngineState := noteOnE 60 (start c6ns { initState with mode := .continuous })

/-- First step built from `c6ns`. -/
def c6step0 : PracticeStep :=
  { index := 0
    time := 0
    midis := {60}
    requiredMidis := {60}
    notes := [⟨60, 0, 1⟩]
    maxDuration := 1 }

/-- Second step built from `c6ns`. -/
def c6step1 : PracticeStep :=
  { index := 1
    time := 1 / 2
    midis := {64}
    requiredMidis := {64, 60}
    notes := [⟨64, 1 / 2, 1⟩]
    maxDuration := 1 }

/-- C6 (counterexample): in a reachable sustaining state on the (non-final)
first step, a tick whose clock value has reached the claimed over-hold
threshold `step.time + max(stepDuration, gapToNextStep) × 1.5` — while the
clock stood before the next step's start time — does NOT fire the over-hold
reset: the tick advances to the next step instead. -/
theorem sustainTick_overhold_claim_false :
    c6s.status = .sustaining ∧
    c6s.stepIndex = 0 ∧
    c6s.practiceTime = 0 ∧
    (buildSteps c6ns).get? 0 = some c6step0 ∧
    (buildSteps c6ns).get? 1 = some c6step1 ∧
    c6step0.time + max c6step0.maxDuration (c6step1.time - c6step0.time) * overHoldFactor
      ≤ 8 / 5 ∧
    c6s.practiceTime < c6step1.time ∧
    (sustainTick (8 / 5) c6s).2 = TickOutcome.advance ∧
    ¬ (sustainTick (8 / 5) c6s).2 = TickOutcome.overHoldReset := by
  decide

/-! ### Re-articulation (C5) -/

lemma goToStep_blocked_eq (s : EngineState) (idx : ℕ) (step prev : PracticeStep)
    (p : ℕ)
    (hmode : s.mode = .continuous)
    (hstep : s.steps.get? idx = some step)
    (hprev : s.steps.get? (idx - 1) = some prev)
    (hpos : 0 < idx)
    (hpreq : p ∈ step.requiredMidis)
    (hp : p ∈ step.midis)
    (hpp : p ∈ prev.midis) :
    goToStep idx s =
      { s with
        stepIndex := idx
        practiceTime := step.time
        expectedMidis := step.requiredMidis
        satisfied := ∅
        wrongNote := none
        audioPlayed := false
        reartic := step.midis ∩ prev.midis
        skipPending := true
        showSkipButton := false
        status := .playing } := by
  have hmem : p ∈ step.midis ∩ prev.midis := Finset.mem_inter.mpr ⟨hp, hpp⟩
  unfold goToStep
  rw [hstep]
  dsimp only
  rw [if_pos (show s.mode = PMode.continuous ∧ 0 < idx from ⟨hmode, hpos⟩), hprev]
  dsimp only
  unfold requiredSet
  rw [if_pos hmode]
  have hnc : ¬(s.mode = PMode.continuous ∧
      ∀ m ∈ step.requiredMidis, m ∈ s.held ∧ m ∉ step.midis ∩ prev.midis) :=
    fun hall => (hall.2 p hpreq).2 hmem
  rw [if_neg hnc]

lemma checkAndResume_blocked (s : EngineState) (idx : ℕ) (step prev : PracticeStep)
    (p : ℕ)
    (hmode : s.mode = .continuous)
    (hstep : s.steps.get? idx = some step)
    (hpreq : p ∈ step.requiredMidis)
    (hp : p ∈ step.midis)
    (hpp : p ∈ prev.midis) :
    checkAndResume
      ({ s with
        stepIndex := idx
        practiceTime := step.time
        expectedMidis := step.requiredMidis
        satisfied := ∅
        wrongNote := none
        audioPlayed := false
        reartic := step.midis ∩ prev.midis
        skipPending := true
        showSkipButton := false
        status := .playing } : EngineState) =
      { s with
        stepIndex := idx
        practiceTime := step.time
        expectedMidis := step.requiredMidis
        satisfied := ∅
        wrongNote := none
        audioPlayed := false
        reartic := step.midis ∩ prev.midis
        skipPending := true
        showSkipButton := false
        status := .playing } := by
  have hmem : p ∈ step.midis ∩ prev.midis := Finset.mem_inter.mpr ⟨hp, hpp⟩
  unfold checkAndResume
  rw [if_pos (Or.inr rfl)]
  dsimp only
  rw [hstep]
  unfold requiredSet
  dsimp only
  rw [if_pos hmode]
  rw [if_neg]
  intro hall
  exact (hall p hpreq).2 hmem

lemma noteOffDC_release_reartic (s : EngineState) (idx : ℕ) (step prev : PracticeStep)
    (p : ℕ)
    (hmode : s.mode = .continuous)
    (hstep : s.steps.get? idx = some step)
    (hpreq : p ∈ step.requiredMidis) :
    noteOffE p
      ({ s with
        stepIndex := idx
        practiceTime := step.time
        expectedMidis := step.requiredMidis
        satisfied := ∅
        wrongNote := none
        audioPlayed := false
        reartic := step.midis ∩ prev.midis
        skipPending := true
        showSkipButton := false
        status := .playing } : EngineState) =
      { s with
        stepIndex := idx
        practiceTime := step.time
        expectedMidis := step.requiredMidis
        satisfied := ∅
        held := s.held.erase p
        wrongNote := none
        audioPlayed := false
        reartic := step.midis ∩ prev.midis
        skipPending := true
        showSkipButton := false
        status := .playing } := by
  unfold noteOffE
  rw [if_neg (by simp), if_pos (Or.inl rfl)]
  unfold noteOffDC
  dsimp only
  rw [hstep]
  unfold requiredSet
  dsimp only
  rw [if_pos hmode]
  rw [if_neg (by simp), if_pos hpreq]
  rw [if_neg (by simp)]
  simp

lemma noteOn_repress_satisfies (s : EngineState) (idx : ℕ) (step prev : PracticeStep)
    (p : ℕ)
    (hmode : s.mode = .continuous)
    (hstep : s.steps.get? idx = some step)
    (hpreq : p ∈ step.requiredMidis) :
    p ∈ (noteOnE p
      ({ s with
        stepIndex := idx
        practiceTime := step.time
        expectedMidis := step.requiredMidis
        satisfied := ∅
        held := s.held.erase p
        wrongNote := none
        audioPlayed := false
        reartic := step.midis ∩ prev.midis
        skipPending := true
        showSkipButton := false
        status := .playing } : EngineState)).satisfied ∧
    p ∉ (noteOnE p
      ({ s with
        stepIndex := idx
        practiceTime := step.time
        expectedMidis := step.requiredMidis
        satisfied := ∅
        held := s.held.erase p
        wrongNote := none
        audioPlayed := false
        reartic := step.midis ∩ prev.midis
        skipPending := true
        showSkipButton := false
        status := .playing } : EngineState)).reartic := by
  unfold noteOnE
  rw [if_neg (by simp), if_pos (Or.inl rfl)]
  unfold noteOnDC
  dsimp only
  rw [hstep]
  unfold requiredSet
  dsimp only
  rw [if_pos hmode]
  rw [if_pos hpreq]
  unfold checkAndResume
  rw [if_pos (Or.inr rfl)]
  dsimp only
  rw [hstep]
  unfold requiredSet
  dsimp only
  rw [if_pos hmode]
  split_ifs with hall hdisc
  · exact absurd (hmode ▸ hdisc) (by decide)
  · dsimp only
    exact ⟨hpreq, by simp [Finset.mem_erase]⟩
  · dsimp only
    exact ⟨Finset.mem_insert_self p _, by simp [Finset.mem_erase]⟩

/-- C5 (amended): on a continuous-mode step transition, a pitch that is in the
ownPitches (`midis`) of both the previous and the new step must be released
and pressed again before it counts as satisfied: right after the transition it
is flagged for re-articulation, the step starts unsatisfied in `playing`, and
the readiness check refuses to satisfy the step while the pitch is merely held
over; after a note-off followed by a note-on of that pitch, the pitch counts
as satisfied and is no longer flagged.  (The source keys re-articulation off
the previous step's own pitches, not its full required set — see the
counterexample.) -/
theorem rearticulation_release_repress
    (s : EngineState) (idx : ℕ) (step prev : PracticeStep) (p : ℕ)
    (hmode : s.mode = .continuous)
    (hstep : s.steps.get? idx = some step)
    (hprev : s.steps.get? (idx - 1) = some prev)
    (hpos : 0 < idx)
    (hpreq : p ∈ step.requiredMidis)
    (hp : p ∈ step.midis)
    (hpp : p ∈ prev.midis) :
    p ∈ (goToStep idx s).reartic ∧
    (goToStep idx s).satisfied = ∅ ∧
    (goToStep idx s).status = .playing ∧
    checkAndResume (goToStep idx s) = goToStep idx s ∧
    p ∈ (noteOnE p (noteOffE p (goToStep idx s))).satisfied ∧
    p ∉ (noteOnE p (noteOffE p (goToStep idx s))).reartic := by
  have hg := goToStep_blocked_eq s idx step prev p hmode hstep hprev hpos hpreq hp hpp
  rw [hg, noteOffDC_release_reartic s idx step prev p hmode hstep hpreq]
  exact ⟨Finset.mem_inter.mpr ⟨hp, hpp⟩, rfl, rfl,
    checkAndResume_blocked s idx step prev p hmode hstep hpreq hp hpp,
    (noteOn_repress_satisfies s idx step prev p hmode hstep hpreq).1,
    (noteOn_repress_satisfies s idx step prev p hmode hstep hpreq).2⟩

/-- Two consecutive steps sharing the own pitch 60. -/
def c5wns : List NoteEv := [⟨60, 0, 1⟩, ⟨60, 1, 1⟩]

/-- The session state right after starting a continuous session over `c5wns`. -/
def c5ws : EngineState := start c5wns { initState with mode := .continuous }

/-- First step of `c5wns`. -/
def c5wstep0 : PracticeStep :=
  { index := 0
    time := 0
    midis := {60}
    requiredMidis := {60}
    notes := [⟨60, 0, 1⟩]
    maxDuration := 1 }

/-- Second step of `c5wns`. -/
def c5wstep1 : PracticeStep :=
  { index := 1
    time := 1
    midis := {60}
    requiredMidis := {60}
    notes := [⟨60, 1, 1⟩]
    maxDuration := 1 }

/-- Witness for C5's amended theorem at a concrete repeated-note transition. -/
theorem rearticulation_release_repress_witness :
    60 ∈ (goToStep 1 c5ws).reartic ∧
    (goToStep 1 c5ws).satisfied = ∅ ∧
    (goToStep 1 c5ws).status = .playing ∧
    checkAndResume (goToStep 1 c5ws) = goToStep 1 c5ws ∧
    60 ∈ (noteOnE 60 (noteOffE 60 (goToStep 1 c5ws))).satisfied ∧
    60 ∉ (noteOnE 60 (noteOffE 60 (goToStep 1 c5ws))).reartic :=
  rearticulation_release_repress c5ws 1 c5wstep1 c5wstep0 60
    (by decide) (by decide) (by decide) (by decide) (by decide) (by decide) (by decide)

/-- The continuous session over `c5ns` driven to the third step while holding
the sustained pitch 60 throughout (never releasing it). -/
def c5trace : EngineState :=
  stepE (.sustainTickAt 2) (noteOnE 64 (stepE (.sustainTickAt 1) (noteOnE 60
    (start c5ns { initState with mode := .continuous }))))

/-- Second step of `c5ns` (own pitch 64; the sustained 60 is in its required
set but not among its own pitches). -/
def c5step1 : PracticeStep :=
  { index := 1
    time := 1
    midis := {64}
    requiredMidis := {64, 60}
    notes := [⟨64, 1, 1 / 2⟩]
    maxDuration := 1 / 2 }

/-- Third step of `c5ns` (own pitch 60 again). -/
def c5step2 : PracticeStep :=
  { index := 2
    time := 2
    midis := {60}
    requiredMidis := {60}
    notes := [⟨60, 2, 1⟩]
    maxDuration := 1 }

/-- C5 (counterexample): pitch 60 is in the required set of the previous step
(`c5step1`, where it is merely sustained, not an own pitch) and in the
ownPitches of the new step (`c5step2`); the pitch is held over across the
transition with no note-off, yet the new step is immediately auto-satisfied
(`sustaining`, 60 ∈ satisfied, no re-articulation flag) — refuting the claim
that such a pitch must be released and pressed again. -/
theorem rearticulation_required_set_claim_false :
    (buildSteps c5ns).get? 1 = some c5step1 ∧
    (buildSteps c5ns).get? 2 = some c5step2 ∧
    60 ∈ c5step1.requiredMidis ∧
    60 ∈ c5step2.midis ∧
    c5trace.stepIndex = 2 ∧
    c5trace.status = .sustaining ∧
    60 ∈ c5trace.satisfied ∧
    60 ∈ c5trace.held ∧
    c5trace.reartic = ∅ := by
  decide

/-! ### Flowing-mode matching (C4) -/

lemma bestMatchAux_mono (matched missed : Finset ℕ) (midi : ℕ) (t : ℚ) :
    ∀ (l : List NoteEv) (i : ℕ) (q : ℕ × NoteEv),
      ∃ q', bestMatchAux matched missed midi t l i (some q) = some q' ∧
        absOffMs t q'.2 ≤ absOffMs t q.2 := by
  intro l
  induction l with
  | nil => exact fun i q => ⟨q, rfl, le_refl _⟩
  | cons n rest ih =>
    intro i q
    unfold bestMatchAux
    by_cases h1 : i ∈ matched ∨ i ∈ missed
    · rw [if_pos h1]
      exact ih (i + 1) q
    · rw [if_neg h1]
      by_cases h2 : n.midi ≠ midi
      · rw [if_pos h2]
        exact ih (i + 1) q
      · rw [if_neg h2]
        dsimp only
        by_cases h3 : absOffMs t n ≤ flowingMatchWindowMs ∧ absOffMs t n < absOffMs t q.2
        · rw [if_pos h3]
          rcases ih (i + 1) (i, n) with ⟨q', hq', hle⟩
          exact ⟨q', hq', hle.trans (le_of_lt h3.2)⟩
        · rw [if_neg h3]
          exact ih (i + 1) q

lemma bestMatchAux_complete (matched missed : Finset ℕ) (midi : ℕ) (t : ℚ) :
    ∀ (l : List NoteEv) (i : ℕ) (best : Option (ℕ × NoteEv)) (k : ℕ) (nt : NoteEv),
      l.get? k = some nt → (i + k) ∉ matched → (i + k) ∉ missed →
      nt.midi = midi → absOffMs t nt ≤ flowingMatchWindowMs →
      ∃ q, bestMatchAux matched missed midi t l i best = some q ∧
        absOffMs t q.2 ≤ absOffMs t nt := by
  intro l
  induction l with
  | nil => intro i best k nt hk; simp at hk
  | cons n rest ih =>
    intro i best k nt hk hm hmis hmid hwin
    unfold bestMatchAux
    cases k with
    | zero =>
      simp only [List.get?] at hk
      injection hk with hk
      subst hk
      rw [Nat.add_zero] at hm hmis
      rw [if_neg (by tauto), if_neg (by simp [hmid])]
      dsimp only
      cases best with
      | none =>
        rw [if_pos hwin]
        exact bestMatchAux_mono matched missed midi t rest (i + 1) (i, n)
      | some q0 =>
        dsimp only
        by_cases h3 : absOffMs t n ≤ flowingMatchWindowMs ∧
            absOffMs t n < absOffMs t q0.2
        · rw [if_pos h3]
          exact bestMatchAux_mono matched missed midi t rest (i + 1) (i, n)
        · have hge : absOffMs t q0.2 ≤ absOffMs t n := by
            by_contra hlt
            exact h3 ⟨hwin, lt_of_not_le hlt⟩
          rw [if_neg h3]
          rcases bestMatchAux_mono matched missed midi t rest (i + 1) q0 with
            ⟨q', hq', hle⟩
          exact ⟨q', hq', hle.trans hge⟩
    | succ k' =>
      simp only [List.get?] at hk
      have heq : (i + 1) + k' = i + (k' + 1) := by omega
      have hm' : (i + 1) + k' ∉ matched := by rw [heq]; exact hm
      have hmis' : (i + 1) + k' ∉ missed := by rw [heq]; exact hmis
      by_cases h1 : i ∈ matched ∨ i ∈ missed
      · rw [if_pos h1]
        exact ih (i + 1) best k' nt hk hm' hmis' hmid hwin
      · rw [if_neg h1]
        by_cases h2 : n.midi ≠ midi
        · rw [if_pos h2]
          exact ih (i + 1) best k' nt hk hm' hmis' hmid hwin
        · rw [if_neg h2]
          exact ih (i + 1) _ k' nt hk hm' hmis' hmid hwin

lemma bestMatchAux_sound (matched missed : Finset ℕ) (midi : ℕ) (t : ℚ) :
    ∀ (l : List NoteEv) (i : ℕ) (best : Option (ℕ × NoteEv)) (q : ℕ × NoteEv),
      bestMatchAux matched missed midi t l i best = some q →
      best = some q ∨
        ∃ k, l.get? k = some q.2 ∧ q.1 = i + k ∧
          q.1 ∉ matched ∧ q.1 ∉ missed ∧ q.2.midi = midi ∧
          absOffMs t q.2 ≤ flowingMatchWindowMs := by
  intro l
  induction l with
  | nil =>
    intro i best q hr
    exact Or.inl hr
  | cons n rest ih =>
    intro i best q hr
    unfold bestMatchAux at hr
    by_cases h1 : i ∈ matched ∨ i ∈ missed
    · rw [if_pos h1] at hr
      rcases ih (i + 1) best q hr with h | ⟨k, hk, hik, h3, h4, h5, h6⟩
      · exact Or.inl h
      · exact Or.inr ⟨k + 1, hk, by omega, h3, h4, h5, h6⟩
    · rw [if_neg h1] at hr
      push_neg at h1
      by_cases h2 : n.midi ≠ midi
      · rw [if_pos h2] at hr
        rcases ih (i + 1) best q hr with h | ⟨k, hk, hik, h3, h4, h5, h6⟩
        · exact Or.inl h
        · exact Or.inr ⟨k + 1, hk, by omega, h3, h4, h5, h6⟩
      · rw [if_neg h2] at hr
        rcases hb : best with _ | q0 <;> rw [hb] at hr <;> dsimp only at hr
        · by_cases hw : absOffMs t n ≤ flowingMatchWindowMs
          · rw [if_pos hw] at hr
            rcases ih (i + 1) (some (i, n)) q hr with h | ⟨k, hk, hik, h3, h4, h5, h6⟩
            · injection h with h
              subst h
              exact Or.inr ⟨0, rfl, by omega, h1.1, h1.2, not_not.mp h2, hw⟩
            · exact Or.inr ⟨k + 1, hk, by omega, h3, h4, h5, h6⟩
          · rw [if_neg hw] at hr
            rcases ih (i + 1) none q hr with h | ⟨k, hk, hik, h3, h4, h5, h6⟩
            · cases h
            · exact Or.inr ⟨k + 1, hk, by omega, h3, h4, h5, h6⟩
        · by_cases hw : absOffMs t n ≤ flowingMatchWindowMs ∧
              absOffMs t n < absOffMs t q0.2
          · rw [if_pos hw] at hr
            rcases ih (i + 1) (some (i, n)) q hr with h | ⟨k, hk, hik, h3, h4, h5, h6⟩
            · injection h with h
              subst h
              exact Or.inr ⟨0, rfl, by omega, h1.1, h1.2, not_not.mp h2, hw.1⟩
            · exact Or.inr ⟨k + 1, hk, by omega, h3, h4, h5, h6⟩
          · rw [if_neg hw] at hr
            rcases ih (i + 1) (some q0) q hr with h | ⟨k, hk, hik, h3, h4, h5, h6⟩
            · exact Or.inl h
            · exact Or.inr ⟨k + 1, hk, by omega, h3, h4, h5, h6⟩

/-- C4 (amended): a flowing-mode note-on at clock `t` with pitch `p` matches
the closest unmatched, unmissed reference note of the same pitch within the
500 ms window; the matched note is marked matched (so it can never be matched
again, and the press matches exactly this one note) and a `correct=true` entry
with the signed offset `(t − startTime) × 1000` — rounded to the nearest
millisecond, as the source logs `Math.round(offsetMs)` — is appended.  If no
candidate lies within the window, exactly one `correct=false` entry with
`stepIndex = -1` and no rating is appended and no note is marked. -/
theorem flowing_noteOn_matching (s : EngineState) (p : ℕ) :
    (∀ i note,
      bestMatch s.flowingNotes s.flowingMatched s.flowingMissed p s.practiceTime =
        some (i, note) →
      s.flowingNotes.get? i = some note ∧
      i ∉ s.flowingMatched ∧
      i ∉ s.flowingMissed ∧
      note.midi = p ∧
      absOffMs s.practiceTime note ≤ flowingMatchWindowMs ∧
      (∀ j other, s.flowingNotes.get? j = some other → j ∉ s.flowingMatched →
        j ∉ s.flowingMissed → other.midi = p →
        absOffMs s.practiceTime other ≤ flowingMatchWindowMs →
        absOffMs s.practiceTime note ≤ absOffMs s.practiceTime other) ∧
      (handleFlowingNoteOn p s).flowingMatched = insert i s.flowingMatched ∧
      (handleFlowingNoteOn p s).flowingMissed = s.flowingMissed ∧
      (handleFlowingNoteOn p s).sessionLog = s.sessionLog ++
        [{ stepIndex := (i : ℤ)
           expectedMidis := {note.midi}
           playedMidi := p
           correct := true
           timingOffsetMs := some (jsRound ((s.practiceTime - note.time) * 1000))
           rating := some (rateTimingOffset |(s.practiceTime - note.time) * 1000|) }]) ∧
    ((∀ j other, s.flowingNotes.get? j = some other → j ∉ s.flowingMatched →
        j ∉ s.flowingMissed → other.midi = p →
        ¬ absOffMs s.practiceTime other ≤ flowingMatchWindowMs) →
      (handleFlowingNoteOn p s).flowingMatched = s.flowingMatched ∧
      (handleFlowingNoteOn p s).flowingMissed = s.flowingMissed ∧
      (handleFlowingNoteOn p s).sessionLog = s.sessionLog ++
        [{ stepIndex := -1
           expectedMidis := ∅
           playedMidi := p
           correct := false
           timingOffsetMs := none
           rating := none }]) := by
  constructor
  · intro i note hbm
    have hbm' : bestMatchAux s.flowingMatched s.flowingMissed p s.practiceTime
        s.flowingNotes 0 none = some (i, note) := hbm
    have hs := bestMatchAux_sound s.flowingMatched s.flowingMissed p s.practiceTime
      s.flowingNotes 0 none (i, note) hbm'
    rcases hs with h | ⟨k, hk, hik, h3, h4, h5, h6⟩
    · cases h
    · dsimp only at hik h3 h4 h5 h6 hk
      have hi : k = i := by omega
      subst hi
      refine ⟨hk, h3, h4, h5, h6, ?_, ?_, ?_, ?_⟩
      · intro j other hj hjm hjmis hjmid hjwin
        rcases bestMatchAux_complete s.flowingMatched s.flowingMissed p s.practiceTime
          s.flowingNotes 0 none j other (by simpa using hj) (by simpa using hjm)
          (by simpa using hjmis) hjmid hjwin with ⟨q, hq, hle⟩
        rw [hbm'] at hq
        injection hq with hq
        subst hq
        exact hle
      · unfold handleFlowingNoteOn
        dsimp only
        rw [hbm]
      · unfold handleFlowingNoteOn
        dsimp only
        rw [hbm]
      · unfold handleFlowingNoteOn
        dsimp only
        rw [hbm]
  · intro hno
    have hnone : bestMatch s.flowingNotes s.flowingMatched s.flowingMissed p
        s.practiceTime = none := by
      rcases hr : bestMatch s.flowingNotes s.flowingMatched s.flowingMissed p
        s.practiceTime with _ | q
      · rfl
      · exfalso
        have hr' : bestMatchAux s.flowingMatched s.flowingMissed p s.practiceTime
            s.flowingNotes 0 none = some q := hr
        rcases bestMatchAux_sound s.flowingMatched s.flowingMissed p s.practiceTime
          s.flowingNotes 0 none q hr' with h | ⟨k, hk, hik, h3, h4, h5, h6⟩
        · cases h
        · exact hno q.1 q.2 (by rw [hik]; simpa using hk) h3 h4 h5 h6
    refine ⟨?_, ?_, ?_⟩ <;>
    · unfold handleFlowingNoteOn
      dsimp only
      rw [hnone]

/-- A flowing state whose clock sits 60.5 ms past a lone reference note. -/
def c4cs : EngineState :=
  { initState with
    status := .flowing
    flowingNotes := [⟨60, 0, 1⟩]
    practiceTime := mkRat 121 2000 }

/-- C4 (counterexample): the logged `timingOffsetMs` is `Math.round`ed: at an
exact offset of 60.5 ms the source logs `61`, not the claimed
`(t − startTime) × 1000 = 60.5`. -/
theorem flowing_logged_offset_rounded :
    (handleFlowingNoteOn 60 c4cs).sessionLog =
      [{ stepIndex := 0
         expectedMidis := {60}
         playedMidi := 60
         correct := true
         timingOffsetMs := some 61
         rating := some .great }] ∧
    (c4cs.practiceTime - (0 : ℚ)) * 1000 = 121 / 2 ∧
    (61 : ℚ) ≠ 121 / 2 := by
  decide

/-- A flowing state whose clock sits 60 ms past a lone reference note at 2 s. -/
def c4ws : EngineState :=
  { initState with
    status := .flowing
    flowingNotes := [⟨60, 2, 1⟩]
    practiceTime := mkRat 103 50 }

/-- Witness for C4's amended theorem: the in-window press is logged
correct=true with the rounded signed offset and its rating. -/
theorem flowing_noteOn_matching_witness :
    (handleFlowingNoteOn 60 c4ws).sessionLog = c4ws.sessionLog ++
      [{ stepIndex := (0 : ℤ)
         expectedMidis := {(60 : ℕ)}
         playedMidi := 60
         correct := true
         timingOffsetMs := some (jsRound ((c4ws.practiceTime - (2 : ℚ)) * 1000))
         rating := some (rateTimingOffset |(c4ws.practiceTime - (2 : ℚ)) * 1000|) }] :=
  (((flowing_noteOn_matching c4ws 60).1 0 ⟨60, 2, 1⟩
    (by decide)).2.2.2.2.2.2.2.2)

/-! ### Flowing completeness (C1) -/

lemma countTerminal_append (log : List PracticeLogEntry) (e : PracticeLogEntry)
    (i : ℕ) :
    countTerminal (log ++ [e]) i =
      countTerminal log i + if isTerminalFor i e then 1 else 0 := by
  unfold countTerminal
  rw [List.filter_append, List.length_append]
  congr 1
  rw [List.filter_singleton]
  by_cases hT : isTerminalFor i e <;> simp [hT]

lemma isTerminalFor_missEntry (i j : ℕ) (n : NoteEv) :
    isTerminalFor j (missEntry i n) = true ↔ j = i := by
  unfold isTerminalFor missEntry
  simp [eq_comm]

/-- The invariant of one flowing session: matched and missed index sets are
disjoint subsets of the reference-note index range, every note has exactly one
terminal log entry iff it is matched or missed, and completion implies every
note is matched or missed. -/
structure FlowInv (ns : List NoteEv) (s : EngineState) : Prop where
  statusOk : s.status = .flowing ∨ s.status = .paused ∨ s.status = .complete
  matchedLt : ∀ i ∈ s.flowingMatched, i < s.flowingNotes.length
  missedLt : ∀ i ∈ s.flowingMissed, i < s.flowingNotes.length
  disj : ∀ i ∈ s.flowingMatched, i ∉ s.flowingMissed
  counts : ∀ j : ℕ, countTerminal s.sessionLog j =
    if j ∈ s.flowingMatched ∨ j ∈ s.flowingMissed then 1 else 0
  completeAll : s.status = .complete →
    ∀ i < s.flowingNotes.length, i ∈ s.flowingMatched ∨ i ∈ s.flowingMissed
  lenEq : s.flowingNotes.length = ns.length

lemma missScanAux_spec (t : ℚ) (matched : Finset ℕ) :
    ∀ (l : List NoteEv) (i0 : ℕ) (missed : Finset ℕ) (log : List PracticeLogEntry),
      (∀ j, countTerminal log j = if j ∈ matched ∨ j ∈ missed then 1 else 0) →
      (∀ j ∈ matched, j ∉ missed) →
      (∀ j, countTerminal (missScanAux t matched l i0 missed log).2 j =
        if j ∈ matched ∨ j ∈ (missScanAux t matched l i0 missed log).1 then 1 else 0) ∧
      (∀ j ∈ matched, j ∉ (missScanAux t matched l i0 missed log).1) ∧
      (∀ j ∈ (missScanAux t matched l i0 missed log).1,
        j ∈ missed ∨ (i0 ≤ j ∧ j < i0 + l.length)) := by
  intro l
  induction l with
  | nil =>
    intro i0 missed log hc hd
    exact ⟨hc, hd, fun j hj => Or.inl hj⟩
  | cons n rest ih =>
    intro i0 missed log hc hd
    unfold missScanAux
    by_cases h1 : i0 ∈ matched ∨ i0 ∈ missed
    · rw [if_pos h1]
      rcases ih (i0 + 1) missed log hc hd with ⟨hc', hd', hp'⟩
      refine ⟨hc', hd', fun j hj => ?_⟩
      rcases hp' j hj with h | h
      · exact Or.inl h
      · exact Or.inr ⟨by omega, by simp only [List.length_cons]; omega⟩
    · rw [if_neg h1]
      push_neg at h1
      by_cases h2 : n.time < t - flowingMatchWindowSec
      · rw [if_pos h2]
        have hc' : ∀ j, countTerminal (log ++ [missEntry i0 n]) j =
            if j ∈ matched ∨ j ∈ insert i0 missed then 1 else 0 := by
          intro j
          rw [countTerminal_append, hc j]
          by_cases hji : j = i0
          · subst hji
            rw [if_neg (by tauto), if_pos (Or.inr (Finset.mem_insert_self _ _)),
              if_pos ((isTerminalFor_missEntry _ _ _).mpr rfl)]
          · rw [if_neg (show ¬ isTerminalFor j (missEntry i0 n) = true by
              simp [isTerminalFor_missEntry, hji])]
            simp only [Finset.mem_insert, hji, false_or, Nat.add_zero]
        have hd' : ∀ j ∈ matched, j ∉ insert i0 missed := by
          intro j hj
          simp only [Finset.mem_insert]
          push_neg
          exact ⟨fun he => h1.1 (he ▸ hj), hd j hj⟩
        rcases ih (i0 + 1) (insert i0 missed) (log ++ [missEntry i0 n]) hc' hd' with
          ⟨hc'', hd'', hp''⟩
        refine ⟨hc'', hd'', fun j hj => ?_⟩
        rcases hp'' j hj with h | h
        · rcases Finset.mem_insert.mp h with h | h
          · exact Or.inr ⟨by omega, by simp only [h, List.length_cons]; omega⟩
          · exact Or.inl h
        · exact Or.inr ⟨by omega, by simp only [List.length_cons]; omega⟩
      · rw [if_neg h2]
        by_cases h3 : n.time > t
        · rw [if_pos h3]
          exact ⟨hc, hd, fun j hj => Or.inl hj⟩
        · rw [if_neg h3]
          rcases ih (i0 + 1) missed log hc hd with ⟨hc', hd', hp'⟩
          refine ⟨hc', hd', fun j hj => ?_⟩
          rcases hp' j hj with h | h
          · exact Or.inl h
          · exact Or.inr ⟨by omega, by simp only [List.length_cons]; omega⟩

lemma flushAux_spec (matched : Finset ℕ) :
    ∀ (l : List NoteEv) (i0 : ℕ) (missed : Finset ℕ) (log : List PracticeLogEntry),
      (∀ j, countTerminal log j = if j ∈ matched ∨ j ∈ missed then 1 else 0) →
      (∀ j ∈ matched, j ∉ missed) →
      (∀ j, countTerminal (flushAux matched l i0 missed log).2 j =
        if j ∈ matched ∨ j ∈ (flushAux matched l i0 missed log).1 then 1 else 0) ∧
      (∀ j ∈ matched, j ∉ (flushAux matched l i0 missed log).1) ∧
      (∀ j ∈ (flushAux matched l i0 missed log).1,
        j ∈ missed ∨ (i0 ≤ j ∧ j < i0 + l.length)) ∧
      (∀ k, k < l.length →
        (i0 + k) ∈ matched ∨ (i0 + k) ∈ (flushAux matched l i0 missed log).1) ∧
      (∀ j ∈ missed, j ∈ (flushAux matched l i0 missed log).1) := by
  intro l
  induction l with
  | nil =>
    intro i0 missed log hc hd
    exact ⟨hc, hd, fun j hj => Or.inl hj, fun k hk => by simp at hk, fun j hj => hj⟩
  | cons n rest ih =>
    intro i0 missed log hc hd
    unfold flushAux
    by_cases h1 : i0 ∈ matched ∨ i0 ∈ missed
    · rw [if_pos h1]
      rcases ih (i0 + 1) missed log hc hd with ⟨hc', hd', hp', hcov', hmono'⟩
      refine ⟨hc', hd', fun j hj => ?_, fun k hk => ?_, hmono'⟩
      · rcases hp' j hj with h | h
        · exact Or.inl h
        · exact Or.inr ⟨by omega, by simp only [List.length_cons]; omega⟩
      · cases k with
        | zero =>
          rw [Nat.add_zero]
          rcases h1 with h | h
          · exact Or.inl h
          · exact Or.inr (hmono' i0 h)
        | succ k' =>
          have := hcov' k' (by simpa using hk)
          rcases this with h | h
          · exact Or.inl (by rw [show i0 + (k' + 1) = i0 + 1 + k' by omega]; exact h)
          · exact Or.inr (by rw [show i0 + (k' + 1) = i0 + 1 + k' by omega]; exact h)
    · rw [if_neg h1]
      push_neg at h1
      have hc' : ∀ j, countTerminal (log ++ [missEntry i0 n]) j =
          if j ∈ matched ∨ j ∈ insert i0 missed then 1 else 0 := by
        intro j
        rw [countTerminal_append, hc j]
        by_cases hji : j = i0
        · subst hji
          rw [if_neg (by tauto), if_pos (Or.inr (Finset.mem_insert_self _ _)),
            if_pos ((isTerminalFor_missEntry _ _ _).mpr rfl)]
        · rw [if_neg (show ¬ isTerminalFor j (missEntry i0 n) = true by
            simp [isTerminalFor_missEntry, hji])]
          simp only [Finset.mem_insert, hji, false_or, Nat.add_zero]
      have hd' : ∀ j ∈ matched, j ∉ insert i0 missed := by
        intro j hj
        simp only [Finset.mem_insert]
        push_neg
        exact ⟨fun he => h1.1 (he ▸ hj), hd j hj⟩
      rcases ih (i0 + 1) (insert i0 missed) (log ++ [missEntry i0 n]) hc' hd' with
        ⟨hc'', hd'', hp'', hcov'', hmono''⟩
      refine ⟨hc'', hd'', fun j hj => ?_, fun k hk => ?_, fun j hj => ?_⟩
      · rcases hp'' j hj with h | h
        · rcases Finset.mem_insert.mp h with h | h
          · exact Or.inr ⟨by omega, by simp only [h, List.length_cons]; omega⟩
          · exact Or.inl h
        · exact Or.inr ⟨by omega, by simp only [List.length_cons]; omega⟩
      · cases k with
        | zero =>
          rw [Nat.add_zero]
          exact Or.inr (hmono'' i0 (Finset.mem_insert_self _ _))
        | succ k' =>
          have := hcov'' k' (by simpa using hk)
          rcases this with h | h
          · exact Or.inl (by rw [show i0 + (k' + 1) = i0 + 1 + k' by omega]; exact h)
          · exact Or.inr (by rw [show i0 + (k' + 1) = i0 + 1 + k' by omega]; exact h)
      · exact hmono'' j (Finset.mem_insert_of_mem hj)

lemma FlowInv_flowTick (ns : List NoteEv) (t : ℚ) (s : EngineState)
    (h : FlowInv ns s) : FlowInv ns (flowTick t s) := by
  unfold flowTick
  by_cases hst : s.status = .flowing
  · rw [if_pos hst]
    rcases missScanAux_spec t s.flowingMatched s.flowingNotes 0 s.flowingMissed
      s.sessionLog h.counts h.disj with ⟨hc1, hd1, hp1⟩
    by_cases hend : t ≥ s.flowingEndTime + 1
    · rw [if_pos hend]
      rcases flushAux_spec s.flowingMatched s.flowingNotes 0
        (missScanAux t s.flowingMatched s.flowingNotes 0 s.flowingMissed s.sessionLog).1
        (missScanAux t s.flowingMatched s.flowingNotes 0 s.flowingMissed s.sessionLog).2
        hc1 hd1 with ⟨hc2, hd2, hp2, hcov2, _⟩
      refine ⟨?_, ?_, ?_, ?_, ?_, ?_, ?_⟩ <;> dsimp only
      · exact Or.inr (Or.inr rfl)
      · exact h.matchedLt
      · intro i hi
        rcases hp2 i hi with hi' | hi'
        · rcases hp1 i hi' with hi'' | hi''
          · exact h.missedLt i hi''
          · omega
        · omega
      · exact hd2
      · exact hc2
      · intro _ i hi
        simpa using hcov2 i hi
      · exact h.lenEq
    · rw [if_neg hend]
      refine ⟨?_, ?_, ?_, ?_, ?_, ?_, ?_⟩ <;> dsimp only
      · exact Or.inl hst
      · exact h.matchedLt
      · intro i hi
        rcases hp1 i hi with hi' | hi'
        · exact h.missedLt i hi'
        · omega
      · exact hd1
      · exact hc1
      · intro hcomp
        rw [hst] at hcomp
        cases hcomp
      · exact h.lenEq
  · rw [if_neg hst]
    exact h

lemma isTerminalFor_extraEntry (j m : ℕ) :
    isTerminalFor j ({ stepIndex := -1
                       expectedMidis := ∅
                       playedMidi := m
                       correct := false
                       timingOffsetMs := none
                       rating := none } : PracticeLogEntry) = false := by
  unfold isTerminalFor
  simp

lemma isTerminalFor_matchEntry (j i m : ℕ) (nt : NoteEv) (off : ℚ) :
    isTerminalFor j ({ stepIndex := (i : ℤ)
                       expectedMidis := {nt.midi}
                       playedMidi := m
                       correct := true
                       timingOffsetMs := some (jsRound off)
                       rating := some (rateTimingOffset |off|) } :
      PracticeLogEntry) = true ↔ j = i := by
  unfold isTerminalFor
  simp [eq_comm]

lemma FlowInv_handle (ns : List NoteEv) (m : ℕ) (s : EngineState)
    (h : FlowInv ns s) (hst : s.status = .flowing) :
    FlowInv ns (handleFlowingNoteOn m s) := by
  unfold handleFlowingNoteOn
  dsimp only
  rcases hbm : bestMatch s.flowingNotes s.flowingMatched s.flowingMissed m
    s.practiceTime with _ | q
  · dsimp only
    refine ⟨h.statusOk, h.matchedLt, h.missedLt, h.disj, ?_, ?_, h.lenEq⟩
    · intro j
      rw [countTerminal_append, h.counts j, isTerminalFor_extraEntry]
      simp
    · intro hcomp
      rw [hst] at hcomp
      cases hcomp
  · dsimp only
    have hbm' : bestMatchAux s.flowingMatched s.flowingMissed m s.practiceTime
        s.flowingNotes 0 none = some q := hbm
    rcases bestMatchAux_sound s.flowingMatched s.flowingMissed m s.practiceTime
      s.flowingNotes 0 none q hbm' with hq | ⟨k, hk, hik, h3, h4, _, _⟩
    · cases hq
    · have hlt : q.1 < s.flowingNotes.length := by
        rw [hik]
        simpa using List.get?_eq_some.mp hk |>.1
      refine ⟨h.statusOk, ?_, h.missedLt, ?_, ?_, ?_, h.lenEq⟩
      · intro i hi
        rcases Finset.mem_insert.mp hi with hi | hi
        · exact hi ▸ hlt
        · exact h.matchedLt i hi
      · intro i hi
        rcases Finset.mem_insert.mp hi with hi | hi
        · exact hi ▸ h4
        · exact h.disj i hi
      · intro j
        rw [countTerminal_append, h.counts j]
        simp only [isTerminalFor_matchEntry]
        by_cases hji : j = q.1
        · subst hji
          rw [if_neg (by tauto), if_pos (Or.inl (Finset.mem_insert_self _ _)),
            if_pos rfl]
        · rw [if_neg hji]
          simp only [Finset.mem_insert, hji, false_or, Nat.add_zero]
      · intro hcomp
        rw [hst] at hcomp
        cases hcomp

lemma FlowInv_noteOnE (ns : List NoteEv) (m : ℕ) (s : EngineState)
    (h : FlowInv ns s) : FlowInv ns (noteOnE m s) := by
  unfold noteOnE
  rcases h.statusOk with hst | hst | hst
  · rw [if_pos (Or.inl hst), if_pos hst]
    exact FlowInv_handle ns m _
      ⟨h.statusOk, h.matchedLt, h.missedLt, h.disj, h.counts, h.completeAll, h.lenEq⟩ hst
  · rw [if_pos (Or.inr hst)]
    rw [if_neg (by rw [hst]; decide)]
    exact ⟨h.statusOk, h.matchedLt, h.missedLt, h.disj, h.counts, h.completeAll, h.lenEq⟩
  · rw [if_neg (by rw [hst]; decide), if_neg (by rw [hst]; decide)]
    exact h

lemma FlowInv_noteOffE (ns : List NoteEv) (m : ℕ) (s : EngineState)
    (h : FlowInv ns s) : FlowInv ns (noteOffE m s) := by
  unfold noteOffE
  rcases h.statusOk with hst | hst | hst
  · rw [if_pos (Or.inl hst)]
    exact ⟨h.statusOk, h.matchedLt, h.missedLt, h.disj, h.counts, h.completeAll, h.lenEq⟩
  · rw [if_pos (Or.inr hst)]
    exact ⟨h.statusOk, h.matchedLt, h.missedLt, h.disj, h.counts, h.completeAll, h.lenEq⟩
  · rw [if_neg (by rw [hst]; decide), if_neg (by rw [hst]; decide)]
    exact h

lemma FlowInv_togglePause (ns : List NoteEv) (s : EngineState)
    (h : FlowInv ns s) : FlowInv ns (togglePause s) := by
  unfold togglePause
  split_ifs with h1 h2 h3
  · exact h
  · exact ⟨Or.inr (Or.inl rfl), h.matchedLt, h.missedLt, h.disj, h.counts,
      (fun hc => by cases hc), h.lenEq⟩
  · exact ⟨Or.inl rfl, h.matchedLt, h.missedLt, h.disj, h.counts,
      (fun hc => by cases hc), h.lenEq⟩
  · exact h

lemma FlowInv_start (ns : List NoteEv) (s₀ : EngineState)
    (hmode : s₀.mode = .flowing) (hne : ns ≠ []) :
    FlowInv ns (start ns s₀) := by
  unfold start
  rcases hns : ns with _ | ⟨n0, rest⟩
  · exact absurd hns hne
  · dsimp only
    rw [if_pos hmode]
    have hsne : sortNotesByTime (n0 :: rest) ≠ [] := by
      intro hemp
      have := (List.perm_insertionSort noteLEt (n0 :: rest)).length_eq
      rw [show sortNotesByTime (n0 :: rest) = List.insertionSort noteLEt (n0 :: rest)
        from rfl] at hemp
      rw [hemp] at this
      simp at this
    rcases hhead : (sortNotesByTime (n0 :: rest)).head? with _ | f
    · exact absurd (List.head?_eq_none_iff.mp hhead) hsne
    · rcases hlast : (sortNotesByTime (n0 :: rest)).getLast? with _ | g
      · exact absurd (List.getLast?_eq_none_iff.mp hlast) hsne
      · dsimp only
        refine ⟨Or.inl rfl, ?_, ?_, ?_, ?_, ?_, ?_⟩
        · intro i hi
          simp at hi
        · intro i hi
          simp at hi
        · intro i hi
          simp at hi
        · intro j
          simp [countTerminal]
        · intro hcomp
          cases hcomp
        · exact (List.perm_insertionSort noteLEt (n0 :: rest)).length_eq

lemma FlowInv_of_FlowReach (ns : List NoteEv) (s : EngineState)
    (h : FlowReach ns s) : FlowInv ns s := by
  induction h with
  | start s₀ hmode hne => exact FlowInv_start ns s₀ hmode hne
  | step s e _ hfe ih =>
    cases e with
    | noteOn m => exact FlowInv_noteOnE ns m s ih
    | noteOff m => exact FlowInv_noteOffE ns m s ih
    | flowTickAt t => exact FlowInv_flowTick ns t s ih
    | pauseToggle => exact FlowInv_togglePause ns s ih
    | sustainTickAt t => cases hfe
    | wrongTimer m => cases hfe
    | skipTimer => cases hfe
    | skipPress => cases hfe
    | resetPress => cases hfe
    | startPress l => cases hfe

/-- C1: in every flowing session driven to `complete` by note-on events and
clock ticks, each of the N reference notes has exactly one terminal log entry
— a matched `correct=true` entry or a `rating=miss` entry — with no note
dropped and none counted twice. -/
theorem flowing_completed_terminal_log_once (ns : List NoteEv) (s : EngineState)
    (h : FlowReach ns s) (hc : s.status = .complete) :
    s.flowingNotes.length = ns.length ∧
    ∀ i < ns.length, countTerminal s.sessionLog i = 1 := by
  have hinv := FlowInv_of_FlowReach ns s h
  refine ⟨hinv.lenEq, fun i hi => ?_⟩
  have hmem := hinv.completeAll hc i (by rw [hinv.lenEq]; exact hi)
  rw [hinv.counts i, if_pos hmem]

/-- The one-note score of the C1 witness. -/
def c1ns : List NoteEv := [⟨60, 0, 1⟩]

/-- A completed flowing session over `c1ns`: start, then one tick past
`lastNoteEnd + 1`. -/
def c1s2 : EngineState :=
  stepE (.flowTickAt 3) (start c1ns { initState with mode := .flowing })

/-- Witness for C1 at a concrete completed session. -/
theorem flowing_completed_terminal_log_once_witness :
    c1s2.flowingNotes.length = c1ns.length ∧
    ∀ i < c1ns.length, countTerminal c1s2.sessionLog i = 1 :=
  flowing_completed_terminal_log_once c1ns c1s2
    (FlowReach.step _ _ (FlowReach.start _ rfl (by decide)) trivial)
    (by decide)

/-! ### Satisfied-subset-held invariant (C10) -/

/-- The discrete/continuous invariant: the satisfied set is physically held,
and during active play it is a subset of the current step's required set
(while flowing holds it empty). -/
structure DCInv (s : EngineState) : Prop where
  subHeld : s.satisfied ⊆ s.held
  procStep : (s.status = .playing ∨ s.status = .waiting ∨ s.status = .sustaining) →
    s.stepIndex < s.steps.length ∧ s.satisfied ⊆ requiredOf s
  flowSat : (s.status = .flowing ∨ s.status = .paused) → s.satisfied = ∅

lemma no_proc_flow {st : PStatus}
    (h1 : st = .flowing ∨ st = .paused)
    (h2 : st = .playing ∨ st = .waiting ∨ st = .sustaining) : False := by
  rcases h1 with h | h <;> rcases h2 with h2 | h2 | h2 <;> rw [h] at h2 <;> cases h2

lemma DCInv_goToStep (idx : ℕ) (s : EngineState)
    (hsub : s.satisfied ⊆ s.held) : DCInv (goToStep idx s) := by
  unfold goToStep
  rcases hg : s.steps.get? idx with _ | step
  · dsimp only
    exact ⟨hsub, (fun hp => by rcases hp with h | h | h <;> cases h),
      (fun hf => by rcases hf with h | h <;> cases h)⟩
  · dsimp only
    split_ifs <;>
      first
        | exact ⟨Finset.empty_subset _,
            (fun _ => ⟨List.get?_eq_some.mp hg |>.1, Finset.empty_subset _⟩),
            (fun hf => by rcases hf with h | h <;> cases h)⟩
        | (rename_i hauto
           refine ⟨(fun x hx => (hauto.2 x hx).1), ?_,
             (fun hf => by rcases hf with h | h <;> cases h)⟩
           intro _
           refine ⟨List.get?_eq_some.mp hg |>.1, ?_⟩
           unfold requiredOf
           dsimp only
           rw [hg])

lemma DCInv_checkAndResume (s : EngineState) (h : DCInv s) :
    DCInv (checkAndResume s) := by
  unfold checkAndResume
  by_cases hguard : s.status = .waiting ∨ s.status = .playing
  · rw [if_pos hguard]
    rcases hg : s.steps.get? s.stepIndex with _ | step
    · exact h
    · dsimp only
      by_cases hcond : ∀ m ∈ requiredSet s.mode step, m ∈ s.held ∧ m ∉ s.reartic
      · rw [if_pos hcond]
        by_cases hdisc : s.mode = .discrete
        · rw [if_pos hdisc]
          exact DCInv_goToStep _ _ (fun x hx => (hcond x hx).1)
        · rw [if_neg hdisc]
          refine ⟨(fun x hx => (hcond x hx).1), ?_,
            (fun hf => by rcases hf with hf | hf <;> cases hf)⟩
          intro _
          refine ⟨List.get?_eq_some.mp hg |>.1, ?_⟩
          unfold requiredOf
          dsimp only
          rw [hg]
      · rw [if_neg hcond]
        exact h
  · rw [if_neg hguard]
    exact h

lemma DCInv_noteOnDC (m : ℕ) (s : EngineState) (h : DCInv s)
    (hproc : s.status = .playing ∨ s.status = .waiting ∨ s.status = .sustaining) :
    DCInv (noteOnDC m s) := by
  unfold noteOnDC
  rcases hg : s.steps.get? s.stepIndex with _ | step
  · exact absurd (List.get?_eq_none.mp hg) (by push_neg; exact (h.procStep hproc).1)
  · dsimp only
    split_ifs with hm
    · apply DCInv_checkAndResume
      refine ⟨?_, ?_, (fun hf => absurd hf (fun hf => no_proc_flow hf hproc))⟩
      · intro x hx
        rcases Finset.mem_insert.mp hx with hx | hx
        · exact hx ▸ Finset.mem_insert_self _ _
        · exact Finset.mem_insert_of_mem (h.subHeld hx)
      · intro _
        refine ⟨(h.procStep hproc).1, ?_⟩
        have hreq : requiredOf s = requiredSet s.mode step := by
          unfold requiredOf
          rw [hg]
        intro x hx
        unfold requiredOf
        dsimp only
        rw [hg]
        rcases Finset.mem_insert.mp hx with hx | hx
        · exact hx ▸ hm
        · have := (h.procStep hproc).2 hx
          rw [hreq] at this
          exact this
    · refine ⟨?_, ?_, (fun hf => by rcases hf with hf | hf <;> cases hf)⟩
      · intro x hx
        exact Finset.mem_insert_of_mem (h.subHeld hx)
      · intro _
        refine ⟨(h.procStep hproc).1, ?_⟩
        have hreq : requiredOf s = requiredSet s.mode step := by
          unfold requiredOf
          rw [hg]
        intro x hx
        unfold requiredOf
        dsimp only
        rw [hg]
        have := (h.procStep hproc).2 hx
        rw [hreq] at this
        exact this

lemma DCInv_noteOffDC (m : ℕ) (s : EngineState) (h : DCInv s)
    (hproc : s.status = .playing ∨ s.status = .waiting ∨ s.status = .sustaining) :
    DCInv (noteOffDC m s) := by
  unfold noteOffDC
  rcases hg : s.steps.get? s.stepIndex with _ | step
  · exact absurd (List.get?_eq_none.mp hg) (by push_neg; exact (h.procStep hproc).1)
  · dsimp only
    have hreq : requiredOf s = requiredSet s.mode step := by
      unfold requiredOf
      rw [hg]
    have hmain : ∀ s2 : EngineState,
        s2.satisfied ⊆ s2.held →
        s2.steps = s.steps → s2.stepIndex = s.stepIndex → s2.mode = s.mode →
        s2.satisfied ⊆ requiredSet s.mode step →
        (s2.status = .playing ∨ s2.status = .waiting ∨ s2.status = .sustaining) →
        DCInv (if s2.status = PStatus.waiting then checkAndResume s2 else s2) := by
      intro s2 h1 h2 h3 h4 h5 h6
      have hd : DCInv s2 := by
        refine ⟨h1, ?_, (fun hf => absurd hf (fun hf => no_proc_flow hf h6))⟩
        intro _
        refine ⟨by rw [h2, h3]; exact (h.procStep hproc).1, ?_⟩
        unfold requiredOf
        rw [h2, h3, h4, hg]
        exact h5
      by_cases hw : s2.status = PStatus.waiting
      · rw [if_pos hw]
        exact DCInv_checkAndResume s2 hd
      · rw [if_neg hw]
        exact hd
    by_cases hsus : s.status = PStatus.sustaining ∧ m ∈ requiredSet s.mode step
    · rw [if_pos hsus]
      apply hmain
      · exact fun x hx => Finset.mem_erase.mpr
          ⟨(Finset.mem_erase.mp hx).1, h.subHeld (Finset.mem_erase.mp hx).2⟩
      · rfl
      · rfl
      · rfl
      · intro x hx
        have := (h.procStep hproc).2 (Finset.mem_erase.mp hx).2
        rw [hreq] at this
        exact this
      · exact Or.inl rfl
    · rw [if_neg hsus]
      by_cases hmem : m ∈ requiredSet s.mode step
      · rw [if_pos hmem]
        apply hmain
        · exact fun x hx => Finset.mem_erase.mpr
            ⟨(Finset.mem_erase.mp hx).1, h.subHeld (Finset.mem_erase.mp hx).2⟩
        · rfl
        · rfl
        · rfl
        · intro x hx
          have := (h.procStep hproc).2 (Finset.mem_erase.mp hx).2
          rw [hreq] at this
          exact this
        · exact hproc
      · rw [if_neg hmem]
        apply hmain
        · intro x hx
          refine Finset.mem_erase.mpr ⟨?_, h.subHeld hx⟩
          intro hxm
          apply hmem
          have := (h.procStep hproc).2 hx
          rw [hreq] at this
          exact hxm ▸ this
        · rfl
        · rfl
        · rfl
        · intro x hx
          have := (h.procStep hproc).2 hx
          rw [hreq] at this
          exact this
        · exact hproc

lemma handleFlowingNoteOn_inert (m : ℕ) (s : EngineState) :
    (handleFlowingNoteOn m s).satisfied = s.satisfied ∧
    (handleFlowingNoteOn m s).held = s.held ∧
    (handleFlowingNoteOn m s).status = s.status ∧
    (handleFlowingNoteOn m s).steps = s.steps ∧
    (handleFlowingNoteOn m s).stepIndex = s.stepIndex ∧
    (handleFlowingNoteOn m s).mode = s.mode := by
  unfold handleFlowingNoteOn
  dsimp only
  rcases bestMatch s.flowingNotes s.flowingMatched s.flowingMissed m
    s.practiceTime with _ | q <;>
    exact ⟨rfl, rfl, rfl, rfl, rfl, rfl⟩

lemma DCInv_noteOnE (m : ℕ) (s : EngineState) (h : DCInv s) :
    DCInv (noteOnE m s) := by
  unfold noteOnE
  by_cases h1 : s.status = .flowing ∨ s.status = .paused
  · rw [if_pos h1]
    have hsat : s.satisfied = ∅ := h.flowSat h1
    by_cases h2 : s.status = .flowing
    · rw [if_pos h2]
      rcases handleFlowingNoteOn_inert m
        ({ s with held := insert m s.held } : EngineState) with
        ⟨hs1, _, hs3, _, _, _⟩
      refine ⟨?_, ?_, ?_⟩
      · rw [hs1]
        dsimp only
        rw [hsat]
        exact Finset.empty_subset _
      · intro hp
        rw [hs3] at hp
        exact absurd h1 (fun h1 => no_proc_flow h1 hp)
      · intro _
        rw [hs1]
        dsimp only
        exact hsat
    · rw [if_neg h2]
      refine ⟨?_, ?_, (fun _ => hsat)⟩
      · dsimp only
        rw [hsat]
        exact Finset.empty_subset _
      · intro hp
        exact absurd h1 (fun h1 => no_proc_flow h1 hp)
  · rw [if_neg h1]
    by_cases h2 : s.status = .playing ∨ s.status = .waiting ∨ s.status = .sustaining
    · rw [if_pos h2]
      exact DCInv_noteOnDC m s h h2
    · rw [if_neg h2]
      exact h

lemma DCInv_noteOffE (m : ℕ) (s : EngineState) (h : DCInv s) :
    DCInv (noteOffE m s) := by
  unfold noteOffE
  by_cases h1 : s.status = .flowing ∨ s.status = .paused
  · rw [if_pos h1]
    have hsat : s.satisfied = ∅ := h.flowSat h1
    refine ⟨?_, ?_, (fun _ => hsat)⟩
    · dsimp only
      rw [hsat]
      exact Finset.empty_subset _
    · intro hp
      exact absurd h1 (fun h1 => no_proc_flow h1 hp)
  · rw [if_neg h1]
    by_cases h2 : s.status = .playing ∨ s.status = .waiting ∨ s.status = .sustaining
    · rw [if_pos h2]
      exact DCInv_noteOffDC m s h h2
    · rw [if_neg h2]
      exact h

lemma DCInv_sustainTick (t : ℚ) (s : EngineState) (h : DCInv s) :
    DCInv (sustainTick t s).1 := by
  unfold sustainTick
  by_cases hst : s.status = .sustaining
  · rw [if_pos hst]
    rcases hg : s.steps.get? s.stepIndex with _ | step
    · exact h
    · dsimp only
      rcases hn : s.steps.get? (s.stepIndex + 1) with _ | next
    
      · dsimp only
        split_ifs with h1 h2
        · exact ⟨h.subHeld, (fun hp => by rcases hp with hp | hp | hp <;> cases hp),
            (fun hf => by rcases hf with hf | hf <;> cases hf)⟩
        · exact ⟨Finset.empty_subset _,
            (fun _ => ⟨List.get?_eq_some.mp hg |>.1, Finset.empty_subset _⟩),
            (fun hf => by rcases hf with hf | hf <;> cases hf)⟩
        · refine ⟨h.subHeld, ?_, ?_⟩
          · intro _
            exact h.procStep (Or.inr (Or.inr hst))
          · intro hf
            exact absurd hf (fun hf => no_proc_flow hf (Or.inr (Or.inr hst)))
      · dsimp only
        split_ifs with h1 h2
        · exact DCInv_goToStep _ _ h.subHeld
        · exact ⟨Finset.empty_subset _,
            (fun _ => ⟨List.get?_eq_some.mp hg |>.1, Finset.empty_subset _⟩),
            (fun hf => by rcases hf with hf | hf <;> cases hf)⟩
        · refine ⟨h.subHeld, ?_, ?_⟩
          · intro _
            exact h.procStep (Or.inr (Or.inr hst))
          · intro hf
            exact absurd hf (fun hf => no_proc_flow hf (Or.inr (Or.inr hst)))
  · rw [if_neg hst]
    exact h

lemma DCInv_wrongTimerFire (m : ℕ) (s : EngineState) (h : DCInv s) :
    DCInv (wrongTimerFire m s) := by
  unfold wrongTimerFire
  apply DCInv_checkAndResume
  refine ⟨h.subHeld, ?_, h.flowSat⟩
  intro hp
  exact h.procStep hp

lemma DCInv_skipTimerFire (s : EngineState) (h : DCInv s) :
    DCInv (skipTimerFire s) := by
  unfold skipTimerFire
  split_ifs with h1
  · exact ⟨h.subHeld, (fun hp => h.procStep hp), h.flowSat⟩
  · exact h

lemma DCInv_skipStep (s : EngineState) (h : DCInv s) :
    DCInv (skipStep s) := by
  unfold skipStep
  rcases hg : s.steps.get? s.stepIndex with _ | step
  · exact h
  · exact DCInv_goToStep _ _ h.subHeld

lemma DCInv_togglePause (s : EngineState) (h : DCInv s) :
    DCInv (togglePause s) := by
  unfold togglePause
  split_ifs with h1 h2 h3
  · exact h
  · exact ⟨h.subHeld, (fun hp => by rcases hp with hp | hp | hp <;> cases hp),
      (fun _ => h.flowSat (Or.inl h2))⟩
  · exact ⟨h.subHeld, (fun hp => by rcases hp with hp | hp | hp <;> cases hp),
      (fun _ => h.flowSat (Or.inr h3))⟩
  · exact h

lemma DCInv_reset (s : EngineState) : DCInv (reset s) := by
  unfold reset
  exact ⟨Finset.empty_subset _,
    (fun hp => by rcases hp with hp | hp | hp <;> cases hp),
    (fun _ => rfl)⟩

lemma DCInv_start (ns : List NoteEv) (s : EngineState) (h : DCInv s) :
    DCInv (start ns s) := by
  unfold start
  rcases ns with _ | ⟨n0, rest⟩
  · exact ⟨h.subHeld, (fun hp => h.procStep hp), h.flowSat⟩
  · dsimp only
    by_cases hmode : s.mode = .flowing
    · rw [if_pos hmode]
      rcases (sortNotesByTime (n0 :: rest)).head? with _ | f <;>
        rcases (sortNotesByTime (n0 :: rest)).getLast? with _ | g <;>
        dsimp only
      · exact ⟨Finset.empty_subset _,
          (fun hp => ⟨(h.procStep hp).1, Finset.empty_subset _⟩),
          (fun _ => rfl)⟩
      · exact ⟨Finset.empty_subset _,
          (fun hp => ⟨(h.procStep hp).1, Finset.empty_subset _⟩),
          (fun _ => rfl)⟩
      · exact ⟨Finset.empty_subset _,
          (fun hp => ⟨(h.procStep hp).1, Finset.empty_subset _⟩),
          (fun _ => rfl)⟩
      · exact ⟨Finset.empty_subset _,
          (fun hp => by rcases hp with hp | hp | hp <;> cases hp),
          (fun _ => rfl)⟩
    · rw [if_neg hmode]
      rcases buildSteps (n0 :: rest) with _ | ⟨st, sts⟩
      · exact ⟨Finset.empty_subset _,
          (fun hp => ⟨(h.procStep hp).1, Finset.empty_subset _⟩),
          (fun _ => rfl)⟩
      · exact ⟨Finset.empty_subset _,
          (fun _ => ⟨by simp, Finset.empty_subset _⟩),
          (fun hf => by rcases hf with hf | hf <;> cases hf)⟩

lemma DCInv_of_Reachable (s : EngineState) (h : Reachable s) : DCInv s := by
  induction h with
  | init m =>
    exact ⟨Finset.empty_subset _,
      (fun hp => by rcases hp with hp | hp | hp <;> cases hp),
      (fun hf => by rcases hf with hf | hf <;> cases hf)⟩
  | step s e _ ih =>
    cases e with
    | noteOn m => exact DCInv_noteOnE m s ih
    | noteOff m => exact DCInv_noteOffE m s ih
    | sustainTickAt t => exact DCInv_sustainTick t s ih
    | flowTickAt t =>
      show DCInv (flowTick t s)
      unfold flowTick
      by_cases hst : s.status = .flowing
      · rw [if_pos hst]
        have hsat : s.satisfied = ∅ := ih.flowSat (Or.inl hst)
        by_cases hend : t ≥ s.flowingEndTime + 1
        · rw [if_pos hend]
          exact ⟨(by dsimp only; rw [hsat]; exact Finset.empty_subset _),
            (fun hp => by rcases hp with hp | hp | hp <;> cases hp),
            (fun hf => by rcases hf with hf | hf <;> cases hf)⟩
        · rw [if_neg hend]
          exact ⟨(by dsimp only; rw [hsat]; exact Finset.empty_subset _),
            (fun hp => absurd hp (fun hp => no_proc_flow (Or.inl hst) hp)),
            (fun _ => hsat)⟩
      · rw [if_neg hst]
        exact ih
    | wrongTimer m =>
      show DCInv (if m ∈ s.wrongTimers then wrongTimerFire m s else s)
      split_ifs with h1
      · exact DCInv_wrongTimerFire m s ih
      · exact ih
    | skipTimer => exact DCInv_skipTimerFire s ih
    | skipPress => exact DCInv_skipStep s ih
    | pauseToggle => exact DCInv_togglePause s ih
    | resetPress => exact DCInv_reset s
    | startPress ns => exact DCInv_start ns s ih

/-- C10: in every reachable engine state — in particular after each processed
note-on or note-off of a discrete or continuous session — the satisfied-pitch
set is a subset of the held-pitch set. -/
theorem satisfied_subset_held (s : EngineState) (h : Reachable s) :
    s.satisfied ⊆ s.held :=
  (DCInv_of_Reachable s h).subHeld

/-- Witness for C10 on a concrete reachable state: a continuous session over
`c6ns` with its first step's pitch pressed and held. -/
theorem satisfied_subset_held_witness :
    (stepE (.noteOn 60) (stepE (.startPress c6ns)
      { initState with mode := .continuous })).satisfied ⊆
    (stepE (.noteOn 60) (stepE (.startPress c6ns)
      { initState with mode := .continuous })).held :=
  satisfied_subset_held _
    (Reachable.step _ _ (Reachable.step _ _ (Reachable.init PMode.continuous)))

/-! ### Reset and pending timers (C9) -/

lemma groupNotes_ne_nil : ∀ (l : List NoteEv) (gt : ℚ) (acc : List NoteEv),
    groupNotes gt acc l ≠ [] := by
  intro l
  induction l with
  | nil => intro gt acc; simp [groupNotes]
  | cons n rest ih =>
    intro gt acc
    unfold groupNotes
    split_ifs
    · exact ih _ _
    · simp

lemma buildSteps_ne_nil (ns : List NoteEv) (h : ns ≠ []) : buildSteps ns ≠ [] := by
  unfold buildSteps
  rcases hs : sortNotes ns with _ | ⟨f, rest⟩
  · have hlen := (sortNotes_perm ns).length_eq
    rw [hs] at hlen
    simp only [List.length_nil] at hlen
    exact absurd (List.length_eq_zero.mp hlen.symm) h
  · dsimp only
    intro hmap
    rw [List.map_eq_nil] at hmap
    have h3 : groupNotes f.time [f] rest = [] := by
      have := congrArg List.length hmap
      rw [List.enum_length] at this
      exact List.length_eq_zero.mp this
    exact groupNotes_ne_nil rest f.time [f] h3

lemma sortNotesByTime_ne_nil (ns : List NoteEv) (h : ns ≠ []) :
    sortNotesByTime ns ≠ [] := by
  intro hemp
  have hlen := (List.perm_insertionSort noteLEt ns).length_eq
  rw [show sortNotesByTime ns = List.insertionSort noteLEt ns from rfl] at hemp
  rw [hemp] at hlen
  simp only [List.length_nil] at hlen
  exact absurd (List.length_eq_zero.mp hlen.symm) h

/-- C9 (amended): after `reset()`, the skip timer is cancelled, both animation
loops are inert (their ticks leave the reset state unchanged), and a pending
800 ms wrong-note callback — which the source does NOT cancel — can only
remove itself from the pending list while the engine stays idle, mutating
nothing else; the engine immediately accepts a new `start()` (flowing or
step-based according to the selected mode).  (If a new session is started
before a stale wrong-note callback fires, the callback CAN mutate the new
session — see the counterexample.) -/
theorem reset_cancellation (s : EngineState) :
    (reset s).skipPending = false ∧
    (reset s).status = .idle ∧
    (∀ t, stepE (.sustainTickAt t) (reset s) = reset s) ∧
    (∀ t, stepE (.flowTickAt t) (reset s) = reset s) ∧
    (∀ m, stepE (.wrongTimer m) (reset s) =
      { reset s with wrongTimers := (reset s).wrongTimers.erase m }) ∧
    stepE .skipTimer (reset s) = reset s ∧
    (∀ ns, ns ≠ [] → (start ns (reset s)).error = none ∧
      ((reset s).mode = .flowing → (start ns (reset s)).status = .flowing) ∧
      ((reset s).mode ≠ .flowing → (start ns (reset s)).status = .playing)) := by
  refine ⟨rfl, rfl, ?_, ?_, ?_, ?_, ?_⟩
  · intro t
    show (sustainTick t (reset s)).1 = reset s
    unfold sustainTick
    rw [if_neg (by unfold reset; simp)]
  · intro t
    show flowTick t (reset s) = reset s
    unfold flowTick
    rw [if_neg (by unfold reset; simp)]
  · intro m
    show (if m ∈ (reset s).wrongTimers then wrongTimerFire m (reset s)
      else reset s) = _
    by_cases hm : m ∈ (reset s).wrongTimers
    · rw [if_pos hm]
      unfold wrongTimerFire
      have hwn : (reset s).wrongNote = none := rfl
      rw [hwn]
      unfold checkAndResume
      rw [if_neg (by unfold reset; simp)]
      rfl
    · rw [if_neg hm, List.erase_of_not_mem hm]
    
  · show skipTimerFire (reset s) = reset s
    unfold skipTimerFire
    rw [if_neg (by unfold reset; simp)]
  · intro ns hne
    rcases hns : ns with _ | ⟨n0, rest⟩
    · exact absurd hns hne
    · unfold start
      dsimp only
      by_cases hmode : (reset s).mode = PMode.flowing
      · rw [if_pos hmode]
        have hsne := sortNotesByTime_ne_nil (n0 :: rest) (by simp)
        rcases hhead : (sortNotesByTime (n0 :: rest)).head? with _ | f
        · exact absurd (List.head?_eq_none_iff.mp hhead) hsne
        · rcases hlast : (sortNotesByTime (n0 :: rest)).getLast? with _ | g
          · exact absurd (List.getLast?_eq_none_iff.mp hlast) hsne
          · exact ⟨rfl, fun _ => rfl, fun hf => absurd hmode hf⟩
      · rw [if_neg hmode]
        have hbne := buildSteps_ne_nil (n0 :: rest) (by simp)
        rcases hbs : buildSteps (n0 :: rest) with _ | ⟨st, sts⟩
        · exact absurd hbs hbne
        · exact ⟨rfl, fun hf => absurd hf hmode, fun _ => rfl⟩

/-- Witness for C9's amended theorem at the initial state. -/
theorem reset_cancellation_witness :
    (reset initState).skipPending = false ∧
    (start c1ns (reset initState)).error = none ∧
    (start c1ns (reset initState)).status = .flowing :=
  ⟨(reset_cancellation initState).1,
   ((reset_cancellation initState).2.2.2.2.2.2 c1ns (by decide)).1,
   ((reset_cancellation initState).2.2.2.2.2.2 c1ns (by decide)).2.1 rfl⟩

/-- One-note score for the C9 counterexample. -/
def c9ns : List NoteEv := [⟨60, 0, 1⟩]

/-- Session 1: continuous session over `c9ns` in which a wrong note (pitch 33)
is pressed, scheduling an 800 ms auto-clear timer. -/
def c9s2 : EngineState := noteOnE 33 (start c9ns { initState with mode := .continuous })

/-- `reset()` is called while that timer is still pending. -/
def c9s3 : EngineState := reset c9s2

/-- Session 2 is started immediately, its only step is satisfied (pitch 60
pressed and held, the engine sustains), then a wrong note drops it to
`waiting` with the clock frozen — all while session 1's timer is pending. -/
def c9s6 : EngineState := noteOnE 33 (noteOnE 60 (start c9ns c9s3))

/-- C9 (counterexample): `reset()` does not cancel the pending 800 ms
wrong-note callback of the previous session (it is still pending after the
reset), and when it fires — its deadline lies before the new session's own
timer — it mutates the new session's state: the readiness re-check it invokes
resumes the clock, flipping the status from `waiting` to `sustaining`.  This
refutes the claim that no callback scheduled during the previous session ever
mutates the engine state or resumes a clock after `reset()`. -/
theorem reset_stale_timer_claim_false :
    c9s2.wrongTimers = [33] ∧
    c9s3.status = .idle ∧
    c9s3.wrongTimers = [33] ∧
    c9s6.status = .waiting ∧
    c9s6.wrongTimers = [33, 33] ∧
    (stepE (.wrongTimer 33) c9s6).status = .sustaining ∧
    (stepE (.wrongTimer 33) c9s6).satisfied = {60} := by
  decide

end Practice
